import Mathlib

/-!
Verification development for the gdrive4d embed synchronization engine.

The TypeScript sources are shallowly embedded: strings become lists of Unicode
code points (`Str`), byte arrays become lists of `Nat` below 256, promises and
thrown exceptions become `Except`, and the Discord / Google Drive side effects
become explicit state passing over a `World` value.
-/

namespace Gdrive

/-- Strings are modelled as lists of Unicode code points (JS strings iterated
with `Array.from`, i.e. by code point). -/
abbrev Str : Type := List Nat

/-- Code-point list of a Lean string literal, used for concrete test inputs. -/
def strOf (s : String) : Str := s.data.map Char.toNat

/-- A Unicode scalar value: any code point outside the surrogate range.
JS strings that are well-formed UTF-16 denote exactly sequences of these. -/
def ValidScalar (c : Nat) : Prop := c < 0xD800 ∨ (0xE000 ≤ c ∧ c < 0x110000)

instance (c : Nat) : Decidable (ValidScalar c) := by unfold ValidScalar; infer_instance

instance {ε α : Type} [DecidableEq ε] [DecidableEq α] : DecidableEq (Except ε α) :=
  fun a b =>
    match a, b with
    | .ok x, .ok y => if h : x = y then .isTrue (by rw [h]) else .isFalse (by simp [h])
    | .error x, .error y => if h : x = y then .isTrue (by rw [h]) else .isFalse (by simp [h])
    | .ok _, .error _ => .isFalse (by simp)
    | .error _, .ok _ => .isFalse (by simp)

/-- `String.prototype.indexOf` for a single code point: first index or `none`
(JS returns `-1`). -/
def listIndexOf : Str → Nat → Option Nat
  | [], _ => none
  | x :: xs, c => if x = c then some 0 else (listIndexOf xs c).map (· + 1)

/-! ## UTF-8 (`TextEncoder` / `TextDecoder`) -/

/-- UTF-8 encoding of one scalar value (`TextEncoder`). -/
def utf8EncodeChar (c : Nat) : List Nat :=
  if c < 0x80 then [c]
  else if c < 0x800 then [0xC0 + c / 64, 0x80 + c % 64]
  else if c < 0x10000 then [0xE0 + c / 4096, 0x80 + c / 64 % 64, 0x80 + c % 64]
  else [0xF0 + c / 262144, 0x80 + c / 4096 % 64, 0x80 + c / 64 % 64, 0x80 + c % 64]

/-- `new TextEncoder().encode(str)`: UTF-8 bytes of a scalar-value string. -/
def utf8Encode (s : Str) : List Nat := (s.map utf8EncodeChar).flatten

/-- One step of the UTF-8 decoder: given a lead byte and the bytes after it,
produce the decoded code point (U+FFFD on malformed input, the default
decoder being non-fatal) and the remaining bytes.  Malformed input handling
is simplified (a whole mis-shaped group is consumed per replacement
character, where WHATWG resynchronises byte by byte); every well-formed
byte stream decodes exactly, and the claims only exercise well-formed
streams. -/
def utf8Step (b : Nat) (rest : List Nat) : Nat × List Nat :=
  if b < 0x80 then (b, rest)
  else if 0xC2 ≤ b ∧ b ≤ 0xDF then
    match rest with
    | b1 :: rest1 =>
      if 0x80 ≤ b1 ∧ b1 ≤ 0xBF then ((b - 0xC0) * 64 + (b1 - 0x80), rest1)
      else (0xFFFD, rest1)
    | [] => (0xFFFD, [])
  else if 0xE0 ≤ b ∧ b ≤ 0xEF then
    match rest with
    | b1 :: b2 :: rest2 =>
      if ((b = 0xE0 ∧ 0xA0 ≤ b1 ∧ b1 ≤ 0xBF) ∨ (b = 0xED ∧ 0x80 ≤ b1 ∧ b1 ≤ 0x9F) ∨
          (b ≠ 0xE0 ∧ b ≠ 0xED ∧ 0x80 ≤ b1 ∧ b1 ≤ 0xBF)) ∧ 0x80 ≤ b2 ∧ b2 ≤ 0xBF then
        ((b - 0xE0) * 4096 + (b1 - 0x80) * 64 + (b2 - 0x80), rest2)
      else (0xFFFD, rest2)
    | _ => (0xFFFD, [])
  else if 0xF0 ≤ b ∧ b ≤ 0xF4 then
    match rest with
    | b1 :: b2 :: b3 :: rest3 =>
      if ((b = 0xF0 ∧ 0x90 ≤ b1 ∧ b1 ≤ 0xBF) ∨ (b = 0xF4 ∧ 0x80 ≤ b1 ∧ b1 ≤ 0x8F) ∨
          (b ≠ 0xF0 ∧ b ≠ 0xF4 ∧ 0x80 ≤ b1 ∧ b1 ≤ 0xBF)) ∧
          0x80 ≤ b2 ∧ b2 ≤ 0xBF ∧ 0x80 ≤ b3 ∧ b3 ≤ 0xBF then
        ((b - 0xF0) * 262144 + (b1 - 0x80) * 4096 + (b2 - 0x80) * 64 + (b3 - 0x80), rest3)
      else (0xFFFD, rest3)
    | _ => (0xFFFD, [])
  else (0xFFFD, rest)

/-- UTF-8 decoding loop, fuelled for structural recursion; one unit of fuel
per emitted code point, and every step consumes at least one byte, so fuel
equal to the byte count suffices. -/
def utf8DecodeFuel : Nat → List Nat → List Nat
  | 0, _ => []
  | _ + 1, [] => []
  | fuel + 1, b :: rest =>
    let s := utf8Step b rest
    s.1 :: utf8DecodeFuel fuel s.2

/-- The UTF-8 decoding body of `TextDecoder` (before BOM handling). -/
def utf8DecodeLoop (bs : List Nat) : List Nat := utf8DecodeFuel bs.length bs

/-- A `TextDecoder` constructed without `ignoreBOM: true` removes one leading
UTF-8 byte-order mark before decoding. -/
def stripBOM (bs : List Nat) : List Nat :=
  match bs with
  | b0 :: b1 :: b2 :: rest => if b0 = 0xEF ∧ b1 = 0xBB ∧ b2 = 0xBF then rest else bs
  | _ => bs

/-- `new TextDecoder().decode(bytes)`. -/
def textDecode (bs : List Nat) : Str := utf8DecodeLoop (stripBOM bs)

/-! ## The correlation codec (`src/unnamed/part_001`, `util/invisible.ts`) -/

/-- `invisibleChars`: the 16 reserved invisible code points U+2060 … U+206F. -/
def invisibleChars : List Nat := (List.range 16).map (fun i => 0x2060 + i)

/-- `encode`: UTF-8-encode the payload, split every byte into its high and low
nibble, and map each nibble to the corresponding invisible code point.
(The source indexes with `invisibleChars[i]!`; the index is always `< 16`,
so the `getD` default is never used.) -/
def encode (str : Str) : Str :=
  ((utf8Encode str).map (fun byte => [byte >>> 4, byte &&& 0xF])).flatten.map
    (fun i => invisibleChars.getD i 0)

/-- Table lookup of one code point of the encoded tail; a code point outside
the table raises (`Invalid invisible character`). -/
def charToNibble (codepoint : Nat) : Except Str Nat :=
  match listIndexOf invisibleChars codepoint with
  | none => .error (strOf "Invalid invisible character")
  | some i => .ok i

/-- Re-pair nibbles into bytes: `bytes[i / 2] = (nibbles[i] << 4) | nibbles[i + 1]`
for even `i < length - 1`; a trailing lone nibble is dropped, and the store
into a `Uint8Array` truncates to 8 bits. -/
def pairNibbles : List Nat → List Nat
  | hi :: lo :: rest => (((hi <<< 4) ||| lo) % 256) :: pairNibbles rest
  | _ => []

/-- `decode`: map each code point back to its nibble (raising on a code point
outside the table), re-pair nibbles into bytes, and UTF-8-decode. -/
def decode (encoded : Str) : Except Str Str := do
  let nibbles ← encoded.mapM charToNibble
  pure (textDecode (pairNibbles nibbles))

/-- `appendInvisible`: visible text followed by the encoded payload. -/
def appendInvisible (visible invisible : Str) : Str := visible ++ encode invisible

/-- `decodeAppendedInvisible`: find the minimum index at which any reserved
code point occurs and decode the suffix from there.  With no occurrence the
index set is empty, `Math.min()` is `Infinity`, and `substring(Infinity)` is
the empty string. -/
def decodeAppendedInvisible (text : Str) : Except Str Str :=
  let indices := (invisibleChars.map (fun c => listIndexOf text c)).filterMap id
  match indices.min? with
  | none => decode []
  | some i => decode (text.drop i)

/-! ## Codec lemmas -/

theorem utf8Step_encodeChar (c : Nat) (h : ValidScalar c) (bs : List Nat) :
    ∃ b t, utf8EncodeChar c = b :: t ∧ utf8Step b (t ++ bs) = (c, bs) := by
  by_cases h1 : c < 0x80
  · refine ⟨c, [], ?_, ?_⟩
    · unfold utf8EncodeChar; rw [if_pos h1]
    · simp only [List.nil_append]
      unfold utf8Step
      rw [if_pos h1]
  · by_cases h2 : c < 0x800
    · refine ⟨0xC0 + c / 64, [0x80 + c % 64], ?_, ?_⟩
      · unfold utf8EncodeChar; rw [if_neg h1, if_pos h2]
      · have hA : ¬(0xC0 + c / 64 < 0x80) := by omega
        have hB : 0xC2 ≤ 0xC0 + c / 64 ∧ 0xC0 + c / 64 ≤ 0xDF := by omega
        have hC : 0x80 ≤ 0x80 + c % 64 ∧ 0x80 + c % 64 ≤ 0xBF := by omega
        simp only [List.cons_append, List.nil_append, utf8Step, hA, hB, hC, and_self, and_true,
          true_and, if_true, if_false, ite_true, ite_false, Prod.mk.injEq]
        omega
    · by_cases h3 : c < 0x10000
      · refine ⟨0xE0 + c / 4096, [0x80 + c / 64 % 64, 0x80 + c % 64], ?_, ?_⟩
        · unfold utf8EncodeChar; rw [if_neg h1, if_neg h2, if_pos h3]
        · have hA : ¬(0xE0 + c / 4096 < 0x80) := by omega
          have hB : ¬(0xC2 ≤ 0xE0 + c / 4096 ∧ 0xE0 + c / 4096 ≤ 0xDF) := by omega
          have hC : 0xE0 ≤ 0xE0 + c / 4096 ∧ 0xE0 + c / 4096 ≤ 0xEF := by omega
          have hD : ((0xE0 + c / 4096 = 0xE0 ∧ 0xA0 ≤ 0x80 + c / 64 % 64 ∧
                0x80 + c / 64 % 64 ≤ 0xBF) ∨
              (0xE0 + c / 4096 = 0xED ∧ 0x80 ≤ 0x80 + c / 64 % 64 ∧
                0x80 + c / 64 % 64 ≤ 0x9F) ∨
              (0xE0 + c / 4096 ≠ 0xE0 ∧ 0xE0 + c / 4096 ≠ 0xED ∧
                0x80 ≤ 0x80 + c / 64 % 64 ∧ 0x80 + c / 64 % 64 ≤ 0xBF)) ∧
              0x80 ≤ 0x80 + c % 64 ∧ 0x80 + c % 64 ≤ 0xBF := by
            rcases h with hlt | ⟨hge, _⟩ <;> omega
          simp only [List.cons_append, List.nil_append, utf8Step, hA, hB, hC, hD, and_self,
            and_true, true_and, if_true, if_false, ite_true, ite_false, Prod.mk.injEq]
          omega
      · have hcb : c < 0x110000 := by rcases h with hlt | ⟨_, hub⟩ <;> omega
        refine ⟨0xF0 + c / 262144, [0x80 + c / 4096 % 64, 0x80 + c / 64 % 64, 0x80 + c % 64],
          ?_, ?_⟩
        · unfold utf8EncodeChar; rw [if_neg h1, if_neg h2, if_neg h3]
        · have hA : ¬(0xF0 + c / 262144 < 0x80) := by omega
          have hB : ¬(0xC2 ≤ 0xF0 + c / 262144 ∧ 0xF0 + c / 262144 ≤ 0xDF) := by omega
          have hC : ¬(0xE0 ≤ 0xF0 + c / 262144 ∧ 0xF0 + c / 262144 ≤ 0xEF) := by omega
          have hE : 0xF0 ≤ 0xF0 + c / 262144 ∧ 0xF0 + c / 262144 ≤ 0xF4 := by omega
          have hD : ((0xF0 + c / 262144 = 0xF0 ∧ 0x90 ≤ 0x80 + c / 4096 % 64 ∧
                0x80 + c / 4096 % 64 ≤ 0xBF) ∨
              (0xF0 + c / 262144 = 0xF4 ∧ 0x80 ≤ 0x80 + c / 4096 % 64 ∧
                0x80 + c / 4096 % 64 ≤ 0x8F) ∨
              (0xF0 + c / 262144 ≠ 0xF0 ∧ 0xF0 + c / 262144 ≠ 0xF4 ∧
                0x80 ≤ 0x80 + c / 4096 % 64 ∧ 0x80 + c / 4096 % 64 ≤ 0xBF)) ∧
              (0x80 ≤ 0x80 + c / 64 % 64 ∧ 0x80 + c / 64 % 64 ≤ 0xBF) ∧
              0x80 ≤ 0x80 + c % 64 ∧ 0x80 + c % 64 ≤ 0xBF := by omega
          simp only [List.cons_append, List.nil_append, utf8Step, hA, hB, hC, hD, hE, and_self,
            and_true, true_and, if_true, if_false, ite_true, ite_false, Prod.mk.injEq]
          omega

theorem utf8DecodeFuel_encode (s : Str) (h : ∀ c ∈ s, ValidScalar c) :
    ∀ fuel, s.length ≤ fuel → utf8DecodeFuel fuel (utf8Encode s) = s := by
  induction s with
  | nil =>
    intro fuel _
    have henc : utf8Encode [] = [] := rfl
    rw [henc]
    cases fuel <;> rfl
  | cons c cs ih =>
    intro fuel hfuel
    obtain ⟨f, rfl⟩ : ∃ f, fuel = f + 1 := by
      cases fuel with
      | zero => simp at hfuel
      | succ f => exact ⟨f, rfl⟩
    obtain ⟨b, t, henc, hstep⟩ := utf8Step_encodeChar c (h c (by simp)) (utf8Encode cs)
    have hflat : utf8Encode (c :: cs) = utf8EncodeChar c ++ utf8Encode cs := by
      simp [utf8Encode]
    rw [hflat, henc, List.cons_append]
    show (utf8Step b (t ++ utf8Encode cs)).1 ::
      utf8DecodeFuel f (utf8Step b (t ++ utf8Encode cs)).2 = c :: cs
    rw [hstep]
    exact congrArg (c :: ·) (ih (fun x hx => h x (by simp [hx])) f (by simpa using hfuel))

theorem length_le_utf8Encode_length (s : Str) : s.length ≤ (utf8Encode s).length := by
  induction s with
  | nil => simp [utf8Encode]
  | cons c cs ih =>
    have hflat : utf8Encode (c :: cs) = utf8EncodeChar c ++ utf8Encode cs := by
      simp [utf8Encode]
    have hpos : 0 < (utf8EncodeChar c).length := by
      unfold utf8EncodeChar
      split
      · simp
      · split
        · simp
        · split <;> simp
    rw [hflat]
    simp only [List.length_cons, List.length_append]
    omega

theorem utf8DecodeLoop_utf8Encode (s : Str) (h : ∀ c ∈ s, ValidScalar c) :
    utf8DecodeLoop (utf8Encode s) = s :=
  utf8DecodeFuel_encode s h _ (length_le_utf8Encode_length s)

theorem stripBOM_eq_self (bs : List Nat)
    (h : ∀ rest, bs ≠ 0xEF :: 0xBB :: 0xBF :: rest) : stripBOM bs = bs := by
  rcases bs with _ | ⟨b0, _ | ⟨b1, _ | ⟨b2, rest⟩⟩⟩
  · rfl
  · rfl
  · rfl
  · show (if b0 = 0xEF ∧ b1 = 0xBB ∧ b2 = 0xBF then rest else b0 :: b1 :: b2 :: rest) = _
    rw [if_neg]
    rintro ⟨rfl, rfl, rfl⟩
    exact h rest rfl

theorem utf8Encode_no_bom (s : Str) (h : ∀ c ∈ s, ValidScalar c)
    (hb : s.head? ≠ some 0xFEFF) :
    ∀ rest, utf8Encode s ≠ 0xEF :: 0xBB :: 0xBF :: rest := by
  intro rest hcontra
  rcases s with _ | ⟨c, cs⟩
  · exact absurd hcontra (by simp [utf8Encode])
  · have hc : ValidScalar c := h c (by simp)
    have hne : c ≠ 0xFEFF := by simpa using hb
    have henc : utf8Encode (c :: cs) = utf8EncodeChar c ++ utf8Encode cs := by
      simp [utf8Encode]
    rw [henc] at hcontra
    have hcb : c < 0x110000 := by rcases hc with hlt | ⟨_, hub⟩ <;> omega
    unfold utf8EncodeChar at hcontra
    by_cases h1 : c < 0x80
    · rw [if_pos h1] at hcontra
      simp only [List.cons_append, List.nil_append, List.cons.injEq] at hcontra
      omega
    · by_cases h2 : c < 0x800
      · rw [if_neg h1, if_pos h2] at hcontra
        simp only [List.cons_append, List.nil_append, List.cons.injEq] at hcontra
        obtain ⟨he, -⟩ := hcontra
        omega
      · by_cases h3 : c < 0x10000
        · rw [if_neg h1, if_neg h2, if_pos h3] at hcontra
          simp only [List.cons_append, List.nil_append, List.cons.injEq] at hcontra
          obtain ⟨e0, e1, e2, -⟩ := hcontra
          omega
        · rw [if_neg h1, if_neg h2, if_neg h3] at hcontra
          simp only [List.cons_append, List.nil_append, List.cons.injEq] at hcontra
          obtain ⟨e0, -⟩ := hcontra
          omega

theorem utf8EncodeChar_lt_256 (c : Nat) (h : ValidScalar c) :
    ∀ b ∈ utf8EncodeChar c, b < 256 := by
  intro b hb
  have hcb : c < 0x110000 := by rcases h with h | ⟨_, h2⟩ <;> omega
  unfold utf8EncodeChar at hb
  split at hb
  · simp at hb; omega
  · split at hb
    · simp at hb; rcases hb with hb | hb <;> omega
    · split at hb
      · simp at hb; rcases hb with hb | hb | hb <;> omega
      · simp at hb; rcases hb with hb | hb | hb | hb <;> omega

theorem utf8Encode_lt_256 (s : Str) (h : ∀ c ∈ s, ValidScalar c) :
    ∀ b ∈ utf8Encode s, b < 256 := by
  intro b hb
  unfold utf8Encode at hb
  rw [List.mem_flatten] at hb
  obtain ⟨l, hl, hbl⟩ := hb
  rw [List.mem_map] at hl
  obtain ⟨c, hc, rfl⟩ := hl
  exact utf8EncodeChar_lt_256 c (h c hc) b hbl

set_option maxRecDepth 10000 in
theorem charToNibble_getD (n : Nat) (h : n < 16) :
    charToNibble (invisibleChars.getD n 0) = .ok n := by
  have : ∀ m < 16, charToNibble (invisibleChars.getD m 0) = .ok m := by decide
  exact this n h

theorem mapM_nibbleChars (ns : List Nat) (h : ∀ n ∈ ns, n < 16) :
    (ns.map (fun i => invisibleChars.getD i 0)).mapM charToNibble = Except.ok ns := by
  induction ns with
  | nil => rfl
  | cons n ns ih =>
    rw [List.map_cons, List.mapM_cons, charToNibble_getD n (h n (by simp)),
      ih (fun x hx => h x (by simp [hx]))]
    rfl

set_option maxRecDepth 10000 in
theorem pairNibbles_flat (bytes : List Nat) (h : ∀ b ∈ bytes, b < 256) :
    pairNibbles ((bytes.map (fun b => [b >>> 4, b &&& 0xF])).flatten) = bytes := by
  induction bytes with
  | nil => rfl
  | cons b bs ih =>
    have hb : b < 256 := h b (by simp)
    have hstep : ∀ x < 256, (((x >>> 4) <<< 4) ||| (x &&& 0xF)) % 256 = x := by decide
    simp only [List.map_cons, List.flatten_cons, List.cons_append, List.append_eq,
      List.nil_append, pairNibbles]
    rw [hstep b hb, ih (fun x hx => h x (by simp [hx]))]

theorem nibbles_lt_16 (bytes : List Nat) (h : ∀ b ∈ bytes, b < 256) :
    ∀ n ∈ (bytes.map (fun b => [b >>> 4, b &&& 0xF])).flatten, n < 16 := by
  intro n hn
  rw [List.mem_flatten] at hn
  obtain ⟨l, hl, hnl⟩ := hn
  rw [List.mem_map] at hl
  obtain ⟨b, hb, rfl⟩ := hl
  have hb256 : b < 256 := h b hb
  have h1 : b >>> 4 < 16 := by
    rw [Nat.shiftRight_eq_div_pow]
    omega
  have h2 : b &&& 0xF < 16 := by
    have := Nat.and_le_right (n := b) (m := 0xF)
    omega
  simp at hnl
  rcases hnl with rfl | rfl <;> assumption

/-- The heart of claim C1: the codec round-trips on scalar-value strings whose
first character is not U+FEFF (a leading byte-order mark is removed by
`TextDecoder`, which is exactly the counterexample to the unrestricted claim). -/
theorem decode_encode (s : Str) (h : ∀ c ∈ s, ValidScalar c)
    (hb : s.head? ≠ some 0xFEFF) : decode (encode s) = .ok s := by
  unfold decode encode
  rw [mapM_nibbleChars _ (nibbles_lt_16 _ (utf8Encode_lt_256 s h))]
  show Except.ok (textDecode (pairNibbles _)) = _
  rw [pairNibbles_flat _ (utf8Encode_lt_256 s h)]
  unfold textDecode
  rw [stripBOM_eq_self _ (utf8Encode_no_bom s h hb), utf8DecodeLoop_utf8Encode s h]

theorem encode_mem_invisible (s : Str) (h : ∀ c ∈ s, ValidScalar c) :
    ∀ ch ∈ encode s, ch ∈ invisibleChars := by
  intro ch hch
  unfold encode at hch
  rw [List.mem_map] at hch
  obtain ⟨n, hn, rfl⟩ := hch
  have h16 : n < 16 := nibbles_lt_16 _ (utf8Encode_lt_256 s h) n hn
  have hin : ∀ m < 16, invisibleChars.getD m 0 ∈ invisibleChars := by decide
  exact hin n h16

theorem flatten_nibbles_length (bytes : List Nat) :
    ((bytes.map (fun b => [b >>> 4, b &&& 0xF])).flatten).length = 2 * bytes.length := by
  induction bytes with
  | nil => rfl
  | cons b bs ih =>
    simp only [List.map_cons, List.flatten_cons, List.length_append, List.length_cons,
      List.length_nil, List.length_singleton, ih]
    omega

theorem encode_ne_nil (s : Str) (hne : s ≠ []) : encode s ≠ [] := by
  intro hcontra
  have h1 : (encode s).length = 0 := by rw [hcontra]; rfl
  unfold encode at h1
  rw [List.length_map, flatten_nibbles_length] at h1
  have h2 := length_le_utf8Encode_length s
  have h3 : s.length ≠ 0 := fun h0 => hne (List.eq_nil_of_length_eq_zero h0)
  omega

theorem listIndexOf_eq_none_of_not_mem (l : Str) (c : Nat) (h : c ∉ l) :
    listIndexOf l c = none := by
  induction l with
  | nil => rfl
  | cons x xs ih =>
    unfold listIndexOf
    rw [if_neg (fun he => h (by simp [he])), ih (fun hm => h (by simp [hm]))]
    rfl

theorem listIndexOf_append_of_not_mem (a b : Str) (c : Nat) (h : c ∉ a) :
    listIndexOf (a ++ b) c = (listIndexOf b c).map (· + a.length) := by
  induction a with
  | nil =>
    simp only [List.nil_append, List.length_nil]
    cases listIndexOf b c <;> simp
  | cons x xs ih =>
    rw [List.cons_append]
    show (if x = c then some 0 else (listIndexOf (xs ++ b) c).map (· + 1)) = _
    rw [if_neg (fun he => h (by simp [he])), ih (fun hm => h (by simp [hm]))]
    cases listIndexOf b c with
    | none => rfl
    | some i =>
      simp only [Option.map_some', Option.some.injEq, List.length_cons]
      omega

theorem foldl_min_eq (a : Nat) : ∀ (xs : List Nat) (x : Nat), (a = x ∨ a ∈ xs) → a ≤ x →
    (∀ b ∈ xs, a ≤ b) → xs.foldl min x = a := by
  intro xs
  induction xs with
  | nil =>
    intro x hmem hle _
    rcases hmem with rfl | hmem
    · rfl
    · simp at hmem
  | cons y ys ih =>
    intro x hmem hlex hball
    rw [List.foldl_cons]
    have hley : a ≤ y := hball y (by simp)
    apply ih
    · rcases hmem with rfl | hmem
      · left; omega
      · rcases List.mem_cons.mp hmem with rfl | hmem
        · left; omega
        · right; exact hmem
    · omega
    · exact fun b hb => hball b (by simp [hb])

theorem min?_eq_some_of (l : List Nat) (a : Nat) (ha : a ∈ l) (hb : ∀ b ∈ l, a ≤ b) :
    l.min? = some a := by
  rcases l with _ | ⟨x, xs⟩
  · simp at ha
  · show some (xs.foldl min x) = some a
    have hmem : a = x ∨ a ∈ xs := by
      rcases List.mem_cons.mp ha with h1 | h1
      · exact Or.inl h1
      · exact Or.inr h1
    rw [foldl_min_eq a xs x hmem (hb x (by simp)) (fun b hbm => hb b (by simp [hbm]))]

/-- On visible text free of the reserved code points, the appended payload is
found exactly at the boundary: decoding the appended form is decoding the
encoded payload itself. -/
theorem decodeAppendedInvisible_append (visible x : Str)
    (hv : ∀ c ∈ visible, c ∉ invisibleChars) (hx : ∀ c ∈ x, ValidScalar c)
    (hne : x ≠ []) :
    decodeAppendedInvisible (appendInvisible visible x) = decode (encode x) := by
  have hmem : ∀ ch ∈ encode x, ch ∈ invisibleChars := encode_mem_invisible x hx
  obtain ⟨h0, t0, henc⟩ : ∃ h0 t0, encode x = h0 :: t0 := by
    rcases hE : encode x with _ | ⟨h0, t0⟩
    · exact absurd hE (encode_ne_nil x hne)
    · exact ⟨h0, t0, rfl⟩
  have hnv : ∀ c ∈ invisibleChars, c ∉ visible := fun c hc hcv => hv c hcv hc
  have hmin : ((invisibleChars.map
      (fun c => listIndexOf (visible ++ encode x) c)).filterMap id).min? =
      some visible.length := by
    apply min?_eq_some_of
    · rw [List.mem_filterMap]
      refine ⟨listIndexOf (visible ++ encode x) h0, List.mem_map_of_mem _ ?_, ?_⟩
      · exact hmem h0 (by rw [henc]; simp)
      · rw [listIndexOf_append_of_not_mem _ _ _ (hnv h0 (hmem h0 (by rw [henc]; simp))),
          henc]
        unfold listIndexOf
        rw [if_pos rfl]
        simp
    · intro b hbm
      rw [List.mem_filterMap] at hbm
      obtain ⟨o, ho, hob⟩ := hbm
      rw [List.mem_map] at ho
      obtain ⟨c, hc, rfl⟩ := ho
      rw [listIndexOf_append_of_not_mem _ _ _ (hnv c hc)] at hob
      cases hE : listIndexOf (encode x) c with
      | none => rw [hE] at hob; simp at hob
      | some i =>
        rw [hE] at hob
        simp only [Option.map_some', id_eq, Option.some.injEq] at hob
        omega
  simp only [decodeAppendedInvisible, appendInvisible, hmin]
  rw [List.drop_left]

/-- With none of the 16 reserved code points present, the index set is empty,
the suffix taken from `Math.min() = Infinity` is empty, and decoding the
empty suffix yields the empty string. -/
theorem decodeAppendedInvisible_no_invisible (text : Str)
    (h : ∀ c ∈ text, c ∉ invisibleChars) :
    decodeAppendedInvisible text = .ok [] := by
  have hnil : (invisibleChars.map (fun c => listIndexOf text c)).filterMap id = [] := by
    rw [List.filterMap_eq_nil_iff]
    intro o ho
    rw [List.mem_map] at ho
    obtain ⟨c, hc, rfl⟩ := ho
    exact listIndexOf_eq_none_of_not_mem text c (fun hm => h c hm hc)
  simp only [decodeAppendedInvisible, hnil, List.min?_nil]
  rfl

/-! ## Dates: models of JS `new Date(string)` parsing and `Date#toISOString`
(used by the Embed Set Builder via `EmbedBuilder#setTimestamp` and by the Diff
Engine via `new Date(timestamp ?? 0).getTime()`).  The model covers the
ISO-8601 UTC shapes this program produces and consumes, for instants from the
epoch up to 9999-02-28; out-of-range or mis-shapen strings parse to `none`
(JS `NaN`). -/

def isLeap (y : Nat) : Bool := y % 4 == 0 && (y % 100 != 0 || y % 400 == 0)

def daysInMonth (y m : Nat) : Nat :=
  if m = 2 then (if isLeap y then 29 else 28)
  else if m = 4 ∨ m = 6 ∨ m = 9 ∨ m = 11 then 30 else 31

def daysFromCivil (y m d : Nat) : Nat :=
  let yAdj := if m ≤ 2 then y - 1 else y
  let era := yAdj / 400
  let yoe := yAdj % 400
  let mp := if 2 < m then m - 3 else m + 9
  let doy := (153 * mp + 2) / 5 + d - 1
  let doe := yoe * 365 + yoe / 4 - yoe / 100 + doy
  era * 146097 + doe - 719468

def civilFromDays (days : Nat) : Nat × Nat × Nat :=
  let z := days + 719468
  let era := z / 146097
  let doe := z % 146097
  let yoe := (doe - doe / 1460 + doe / 36524 - doe / 146096) / 365
  let y := yoe + era * 400
  let doy := doe - (365 * yoe + yoe / 4 - yoe / 100)
  let mp := (5 * doy + 2) / 153
  let d := doy - (153 * mp + 2) / 5 + 1
  let m := if mp < 10 then mp + 3 else mp - 9
  (if m ≤ 2 then y + 1 else y, m, d)

/-- Bounded, balanced exhaustive checker (structural recursion on fuel so the
kernel can evaluate it without deep recursion). -/
def checkCount (p : Nat → Bool) : Nat → Nat → Nat → Bool
  | 0, _, count => count == 0
  | _ + 1, _, 0 => true
  | _ + 1, lo, 1 => p lo
  | fuel + 1, lo, c + 2 =>
    checkCount p fuel lo ((c + 2) / 2) &&
      checkCount p fuel (lo + (c + 2) / 2) (c + 2 - (c + 2) / 2)

theorem checkCount_sound (p : Nat → Bool) :
    ∀ fuel lo count, checkCount p fuel lo count = true →
      ∀ i, lo ≤ i → i < lo + count → p i = true := by
  intro fuel
  induction fuel with
  | zero =>
    intro lo count h i h1 h2
    simp only [checkCount, beq_iff_eq] at h
    omega
  | succ f ih =>
    intro lo count h i h1 h2
    match count with
    | 0 => omega
    | 1 =>
      have : i = lo := by omega
      rw [this]
      exact h
    | c + 2 =>
      rw [show checkCount p (f + 1) lo (c + 2) =
        (checkCount p f lo ((c + 2) / 2) &&
          checkCount p f (lo + (c + 2) / 2) (c + 2 - (c + 2) / 2)) from rfl,
        Bool.and_eq_true] at h
      by_cases hc : i < lo + (c + 2) / 2
      · exact ih lo ((c + 2) / 2) h.1 i h1 hc
      · exact ih (lo + (c + 2) / 2) (c + 2 - (c + 2) / 2) h.2 i (by omega) (by omega)

def numOf (doe : Nat) : Nat := doe - doe / 1460 + doe / 36524 - doe / 146096

def yoeOf (doe : Nat) : Nat := numOf doe / 365

def startOfYoe (yy : Nat) : Nat := 365 * yy + yy / 4 - yy / 100 + yy / 400

theorem tableA_check :
    checkCount (fun yy => decide (yoeOf (startOfYoe yy) = yy)) 20 0 401 = true := by decide

theorem tableB_check :
    checkCount (fun yy => decide (yoeOf (startOfYoe (yy + 1) - 1) = yy)) 20 0 400 = true := by
  decide

theorem tableC_check :
    checkCount (fun yy => decide ((startOfYoe (yy + 1) - startOfYoe yy = 366) ↔
      ((yy + 1) % 4 = 0 ∧ ((yy + 1) % 100 ≠ 0 ∨ (yy + 1) % 400 = 0))) ) 20 0 400 = true := by
  decide

def monthOk (doy : Nat) : Bool :=
  let mp := (5 * doy + 2) / 153
  let d := doy - (153 * mp + 2) / 5 + 1
  let m := if mp < 10 then mp + 3 else mp - 9
  decide (1 ≤ m) && decide (m ≤ 12) && decide (1 ≤ d) && decide (d ≤ 31) &&
  decide ((153 * (if 2 < m then m - 3 else m + 9) + 2) / 5 + d - 1 = doy) &&
  (decide (m ≤ 2) == decide (10 ≤ mp)) &&
  (if m = 2 then decide (d ≤ 29) && (decide (d ≤ 28) || decide (doy = 365)) else
    if m = 4 ∨ m = 6 ∨ m = 9 ∨ m = 11 then decide (d ≤ 30) else true)

theorem tableM_check : checkCount monthOk 20 0 366 = true := by decide

theorem numOf_step (d : Nat) : numOf d ≤ numOf (d + 1) := by
  unfold numOf
  have e1 : (d + 1) % 1460 = 0 → (d + 1) / 1460 = d / 1460 + 1 := by omega
  have e2 : (d + 1) % 1460 ≠ 0 → (d + 1) / 1460 = d / 1460 := by omega
  have e3 : (d + 1) % 36524 = 0 → (d + 1) / 36524 = d / 36524 + 1 := by omega
  have e4 : (d + 1) % 36524 ≠ 0 → (d + 1) / 36524 = d / 36524 := by omega
  have e5 : (d + 1) % 146096 = 0 → (d + 1) / 146096 = d / 146096 + 1 := by omega
  have e6 : (d + 1) % 146096 ≠ 0 → (d + 1) / 146096 = d / 146096 := by omega
  have k1 : (d + 1) % 146096 = 0 → (d + 1) % 36524 = 0 := by omega
  have b1 : d / 1460 ≤ d ∧ d / 146096 ≤ d / 36524 := by omega
  by_cases c1 : (d + 1) % 1460 = 0 <;> by_cases c2 : (d + 1) % 36524 = 0 <;>
    by_cases c3 : (d + 1) % 146096 = 0
  · rw [e1 c1, e3 c2, e5 c3]; clear e1 e2 e3 e4 e5 e6 k1 c1 c2 c3; omega
  · rw [e1 c1, e3 c2, e6 c3]; clear e1 e2 e3 e4 e5 e6 k1 c1 c2 c3; omega
  · rw [e1 c1, e4 c2, e6 (fun hc => c2 (k1 hc))]; clear e1 e2 e3 e4 e5 e6 k1 c1 c2 c3; omega
  · rw [e1 c1, e4 c2, e6 c3]; clear e1 e2 e3 e4 e5 e6 k1 c1 c2 c3; omega
  · rw [e2 c1, e3 c2, e5 c3]; clear e1 e2 e3 e4 e5 e6 k1 c1 c2 c3; omega
  · rw [e2 c1, e3 c2, e6 c3]; clear e1 e2 e3 e4 e5 e6 k1 c1 c2 c3; omega
  · rw [e2 c1, e4 c2, e6 (fun hc => c2 (k1 hc))]; clear e1 e2 e3 e4 e5 e6 k1 c1 c2 c3; omega
  · rw [e2 c1, e4 c2, e6 c3]; clear e1 e2 e3 e4 e5 e6 k1 c1 c2 c3; omega

theorem numOf_mono (a b : Nat) (h : a ≤ b) : numOf a ≤ numOf b := by
  induction b with
  | zero =>
    have : a = 0 := by omega
    rw [this]
  | succ n ih =>
    rcases Nat.lt_or_ge a (n + 1) with h1 | h1
    · exact Nat.le_trans (ih (by omega)) (numOf_step n)
    · have : a = n + 1 := by omega
      rw [this]

theorem yoeOf_mono (a b : Nat) (h : a ≤ b) : yoeOf a ≤ yoeOf b :=
  Nat.div_le_div_right (numOf_mono a b h)

theorem yoe_interval (doe : Nat) (h : doe < 146097) :
    yoeOf doe ≤ 399 ∧ startOfYoe (yoeOf doe) ≤ doe ∧ doe < startOfYoe (yoeOf doe + 1) := by
  have hA := checkCount_sound _ 20 0 401 tableA_check
  have hB := checkCount_sound _ 20 0 400 tableB_check
  have hA' : ∀ yy ≤ 400, yoeOf (startOfYoe yy) = yy := by
    intro yy hyy
    have := hA yy (by omega) (by omega)
    simpa using this
  have hB' : ∀ yy ≤ 399, yoeOf (startOfYoe (yy + 1) - 1) = yy := by
    intro yy hyy
    have := hB yy (by omega) (by omega)
    simpa using this
  have hs400 : startOfYoe 400 = 146097 := by decide
  have h399 : yoeOf doe ≤ 399 := by
    have h1 : yoeOf doe ≤ yoeOf 146096 := yoeOf_mono _ _ (by omega)
    have h2 : yoeOf 146096 = 399 := by
      have := hB' 399 (by omega)
      rw [hs400] at this
      simpa using this
    omega
  refine ⟨h399, ?_, ?_⟩
  · by_contra hlt
    push_neg at hlt
    rcases Nat.eq_zero_or_pos (yoeOf doe) with h0 | hpos
    · rw [h0] at hlt
      have : startOfYoe 0 = 0 := by decide
      omega
    · have hstep : doe ≤ startOfYoe (yoeOf doe) - 1 := by omega
      have hmono := yoeOf_mono doe (startOfYoe (yoeOf doe) - 1) hstep
      have htab := hB' (yoeOf doe - 1) (by omega)
      have : yoeOf doe - 1 + 1 = yoeOf doe := by omega
      rw [this] at htab
      omega
  · by_contra hge
    push_neg at hge
    have hmono := yoeOf_mono (startOfYoe (yoeOf doe + 1)) doe hge
    have htab := hA' (yoeOf doe + 1) (by omega)
    omega



theorem monthOk_unpack (doy : Nat) (h : doy ≤ 365) :
    1 ≤ (if (5 * doy + 2) / 153 < 10 then (5 * doy + 2) / 153 + 3
      else (5 * doy + 2) / 153 - 9) ∧
    (if (5 * doy + 2) / 153 < 10 then (5 * doy + 2) / 153 + 3
      else (5 * doy + 2) / 153 - 9) ≤ 12 ∧
    1 ≤ doy - (153 * ((5 * doy + 2) / 153) + 2) / 5 + 1 ∧
    doy - (153 * ((5 * doy + 2) / 153) + 2) / 5 + 1 ≤ 31 ∧
    (153 * (if 2 < (if (5 * doy + 2) / 153 < 10 then (5 * doy + 2) / 153 + 3
        else (5 * doy + 2) / 153 - 9) then
      (if (5 * doy + 2) / 153 < 10 then (5 * doy + 2) / 153 + 3
        else (5 * doy + 2) / 153 - 9) - 3
      else (if (5 * doy + 2) / 153 < 10 then (5 * doy + 2) / 153 + 3
        else (5 * doy + 2) / 153 - 9) + 9) + 2) / 5 +
      (doy - (153 * ((5 * doy + 2) / 153) + 2) / 5 + 1) - 1 = doy ∧
    ((if (5 * doy + 2) / 153 < 10 then (5 * doy + 2) / 153 + 3
      else (5 * doy + 2) / 153 - 9) ≤ 2 ↔ 10 ≤ (5 * doy + 2) / 153) ∧
    ((if (5 * doy + 2) / 153 < 10 then (5 * doy + 2) / 153 + 3
      else (5 * doy + 2) / 153 - 9) = 2 →
      doy - (153 * ((5 * doy + 2) / 153) + 2) / 5 + 1 ≤ 29 ∧
      (doy - (153 * ((5 * doy + 2) / 153) + 2) / 5 + 1 = 29 → doy = 365)) ∧
    (((if (5 * doy + 2) / 153 < 10 then (5 * doy + 2) / 153 + 3
        else (5 * doy + 2) / 153 - 9) = 4 ∨
      (if (5 * doy + 2) / 153 < 10 then (5 * doy + 2) / 153 + 3
        else (5 * doy + 2) / 153 - 9) = 6 ∨
      (if (5 * doy + 2) / 153 < 10 then (5 * doy + 2) / 153 + 3
        else (5 * doy + 2) / 153 - 9) = 9 ∨
      (if (5 * doy + 2) / 153 < 10 then (5 * doy + 2) / 153 + 3
        else (5 * doy + 2) / 153 - 9) = 11) →
      doy - (153 * ((5 * doy + 2) / 153) + 2) / 5 + 1 ≤ 30) := by
  have hm := checkCount_sound monthOk 20 0 366 tableM_check doy (by omega) (by omega)
  unfold monthOk at hm
  simp only [Bool.and_eq_true, decide_eq_true_eq, Bool.or_eq_true, beq_iff_eq,
    decide_eq_decide] at hm
  obtain ⟨⟨⟨⟨⟨⟨h1, h2⟩, h3⟩, h4⟩, h5⟩, h6⟩, h7⟩ := hm
  refine ⟨h1, h2, h3, h4, h5, h6, ?_, ?_⟩
  · intro hm2
    rw [if_pos hm2] at h7
    rw [Bool.and_eq_true, Bool.or_eq_true] at h7
    simp only [decide_eq_true_eq] at h7
    exact ⟨h7.1, fun hd => by omega⟩
  · intro hm30
    rw [if_neg (by omega), if_pos hm30] at h7
    simp only [decide_eq_true_eq] at h7
    exact h7



def civilOfEraDoe (era doe : Nat) : Nat × Nat × Nat :=
  let yoe := (doe - doe / 1460 + doe / 36524 - doe / 146096) / 365
  let y := yoe + era * 400
  let doy := doe - (365 * yoe + yoe / 4 - yoe / 100)
  let mp := (5 * doy + 2) / 153
  let d := doy - (153 * mp + 2) / 5 + 1
  let m := if mp < 10 then mp + 3 else mp - 9
  (if m ≤ 2 then y + 1 else y, m, d)

theorem startOfYoe_step (n : Nat) : startOfYoe n ≤ startOfYoe (n + 1) := by
  unfold startOfYoe
  omega

theorem startOfYoe_mono (a b : Nat) (h : a ≤ b) : startOfYoe a ≤ startOfYoe b := by
  induction b with
  | zero =>
    have : a = 0 := by omega
    rw [this]
  | succ n ih =>
    rcases Nat.lt_or_ge a (n + 1) with h1 | h1
    · exact Nat.le_trans (ih (by omega)) (startOfYoe_step n)
    · have : a = n + 1 := by omega
      rw [this]

theorem startOfYoe_delta (n : Nat) : startOfYoe (n + 1) ≤ startOfYoe n + 366 := by
  unfold startOfYoe
  omega

theorem isLeap_iff (y : Nat) :
    isLeap y = true ↔ (y % 4 = 0 ∧ (y % 100 ≠ 0 ∨ y % 400 = 0)) := by
  unfold isLeap
  simp [Bool.and_eq_true, beq_iff_eq, Bool.or_eq_true, bne_iff_ne]

theorem civilOfEraDoe_ok (era doe : Nat) (hdoe : doe < 146097) (hlow : 4 ≤ era)
    (hhigh : era < 24 ∨ (era = 24 ∧ doe ≤ 145730)) :
    1 ≤ (civilOfEraDoe era doe).1 ∧ (civilOfEraDoe era doe).1 ≤ 9999 ∧
    1 ≤ (civilOfEraDoe era doe).2.1 ∧ (civilOfEraDoe era doe).2.1 ≤ 12 ∧
    1 ≤ (civilOfEraDoe era doe).2.2 ∧
    (civilOfEraDoe era doe).2.2 ≤
      daysInMonth (civilOfEraDoe era doe).1 (civilOfEraDoe era doe).2.1 ∧
    daysFromCivil (civilOfEraDoe era doe).1 (civilOfEraDoe era doe).2.1
      (civilOfEraDoe era doe).2.2 = era * 146097 + doe - 719468 := by
  rcases hc : civilOfEraDoe era doe with ⟨Y, rest⟩
  rcases rest with ⟨m, d⟩
  dsimp only
  unfold civilOfEraDoe at hc
  simp only [] at hc
  rw [Prod.mk.injEq, Prod.mk.injEq] at hc
  obtain ⟨hY, hm, hd⟩ := hc
  rw [show (doe - doe / 1460 + doe / 36524 - doe / 146096) / 365 = yoeOf doe from rfl]
    at hY hm hd
  set yy := yoeOf doe with hyyD
  obtain ⟨h399, hstart, hend⟩ := yoe_interval doe hdoe
  rw [← hyyD] at h399 hstart hend
  have hstartEq : startOfYoe yy = 365 * yy + yy / 4 - yy / 100 := by
    unfold startOfYoe
    omega
  set doy := doe - (365 * yy + yy / 4 - yy / 100) with hdoyD
  clear_value yy
  clear_value doy
  have hdelta := startOfYoe_delta yy
  have hdoy365 : doy ≤ 365 := by omega
  obtain ⟨hm1, hm2, hd1, hd31, hrec, hmpIff, hfeb, h30⟩ := monthOk_unpack doy hdoy365
  rw [hm] at hm1 hm2 hmpIff hfeb h30 hrec hY
  rw [hd] at hd1 hd31 hrec hfeb h30
  have hYcases : (Y = yy + era * 400 + 1 ∧ m ≤ 2) ∨ (Y = yy + era * 400 ∧ ¬(m ≤ 2)) := by
    split at hY
    · exact Or.inl ⟨hY.symm, by assumption⟩
    · exact Or.inr ⟨hY.symm, by assumption⟩
  have h398 : era = 24 → yy ≤ 398 := by
    intro he24
    by_contra hgt
    push_neg at hgt
    have hmono := startOfYoe_mono 399 yy (by omega)
    have hv : startOfYoe 399 = 145731 := by decide
    omega
  refine ⟨by omega, by omega, hm1, hm2, hd1, ?_, ?_⟩
  · -- d ≤ daysInMonth Y m
    unfold daysInMonth
    by_cases hm2e : m = 2
    · rw [if_pos hm2e]
      obtain ⟨hd29, hd365⟩ := hfeb hm2e
      by_cases hl : isLeap Y = true
      · rw [if_pos hl]
        exact hd29
      · rw [if_neg hl]
        by_contra hgt
        push_neg at hgt
        have hdeq : d = 29 := by omega
        have hdoyeq : doy = 365 := hd365 hdeq
        have hdeltaEq : startOfYoe (yy + 1) - startOfYoe yy = 366 := by omega
        have hC := checkCount_sound _ 20 0 400 tableC_check yy (by omega) (by omega)
        simp only [decide_eq_true_eq] at hC
        have hleapish := hC.mp hdeltaEq
        apply hl
        rw [isLeap_iff]
        have hYeq : Y = yy + era * 400 + 1 := by
          rcases hYcases with ⟨he, _⟩ | ⟨_, hn⟩
          · exact he
          · exact absurd (by omega : m ≤ 2) hn
        omega
    · rw [if_neg hm2e]
      by_cases h4c : m = 4 ∨ m = 6 ∨ m = 9 ∨ m = 11
      · rw [if_pos h4c]
        exact h30 h4c
      · rw [if_neg h4c]
        exact hd31
  · -- reconstruction
    unfold daysFromCivil
    simp only []
    have hyAdj : (if m ≤ 2 then Y - 1 else Y) = yy + era * 400 := by
      rcases hYcases with ⟨he, hle⟩ | ⟨he, hn⟩
      · rw [if_pos hle]; omega
      · rw [if_neg hn]; omega
    rw [hyAdj]
    rw [show (yy + era * 400) / 400 = era by omega]
    rw [show (yy + era * 400) % 400 = yy by omega]
    rw [hrec]
    clear hyAdj hYcases h398 hmpIff hfeb h30 hm1 hm2 hd1 hd31 hrec hdelta hend h399
    clear hdoy365 hyyD hY hm hd hlow hhigh hdoe
    omega




theorem civilFromDays_eq (days : Nat) :
    civilFromDays days =
      civilOfEraDoe ((days + 719468) / 146097) ((days + 719468) % 146097) := rfl

theorem civil_roundtrip (days : Nat) (h : days ≤ 2932590) :
    1 ≤ (civilFromDays days).1 ∧ (civilFromDays days).1 ≤ 9999 ∧
    1 ≤ (civilFromDays days).2.1 ∧ (civilFromDays days).2.1 ≤ 12 ∧
    1 ≤ (civilFromDays days).2.2 ∧
    (civilFromDays days).2.2 ≤ daysInMonth (civilFromDays days).1 (civilFromDays days).2.1 ∧
    daysFromCivil (civilFromDays days).1 (civilFromDays days).2.1 (civilFromDays days).2.2 =
      days := by
  have hsplit := Nat.div_add_mod (days + 719468) 146097
  have hdoeLt : (days + 719468) % 146097 < 146097 := Nat.mod_lt _ (by omega)
  have hlow : 4 ≤ (days + 719468) / 146097 := by omega
  have hhigh : (days + 719468) / 146097 < 24 ∨
      ((days + 719468) / 146097 = 24 ∧ (days + 719468) % 146097 ≤ 145730) := by omega
  have hok := civilOfEraDoe_ok _ _ hdoeLt hlow hhigh
  rw [civilFromDays_eq days]
  refine ⟨hok.1, hok.2.1, hok.2.2.1, hok.2.2.2.1, hok.2.2.2.2.1, hok.2.2.2.2.2.1, ?_⟩
  rw [hok.2.2.2.2.2.2]
  omega

def digitVal (c : Nat) : Option Nat := if 48 ≤ c ∧ c ≤ 57 then some (c - 48) else none

def parse2 (a b : Nat) : Option Nat := do
  pure ((← digitVal a) * 10 + (← digitVal b))

def parse3 (a b c : Nat) : Option Nat := do
  pure ((← digitVal a) * 100 + (← digitVal b) * 10 + (← digitVal c))

def parse4 (a b c d : Nat) : Option Nat := do
  pure ((← digitVal a) * 1000 + (← digitVal b) * 100 + (← digitVal c) * 10 + (← digitVal d))

def msOfParts (y mo d h mi s f : Nat) : Option Nat :=
  if 1 ≤ y ∧ y ≤ 9999 ∧ 1 ≤ mo ∧ mo ≤ 12 ∧ 1 ≤ d ∧ d ≤ daysInMonth y mo ∧
      h ≤ 23 ∧ mi ≤ 59 ∧ s ≤ 59 ∧ f ≤ 999 then
    some ((((daysFromCivil y mo d * 24 + h) * 60 + mi) * 60 + s) * 1000 + f)
  else none

def dateMsEnd (y mo d h mi s : Nat) : List Nat → Option Nat
  | [90] => msOfParts y mo d h mi s 0
  | [46, f1, f2, f3, 90] => do msOfParts y mo d h mi s (← parse3 f1 f2 f3)
  | _ => none

def dateMsSec (y mo d h mi : Nat) : List Nat → Option Nat
  | s1 :: s2 :: rest => do dateMsEnd y mo d h mi (← parse2 s1 s2) rest
  | _ => none

def dateMsMin (y mo d h : Nat) : List Nat → Option Nat
  | i1 :: i2 :: 58 :: rest => do dateMsSec y mo d h (← parse2 i1 i2) rest
  | _ => none

def dateMsTime (y mo d : Nat) : List Nat → Option Nat
  | [] => msOfParts y mo d 0 0 0 0
  | 84 :: h1 :: h2 :: 58 :: rest => do dateMsMin y mo d (← parse2 h1 h2) rest
  | _ => none

def dateMsDay (y mo : Nat) : List Nat → Option Nat
  | d1 :: d2 :: rest => do dateMsTime y mo (← parse2 d1 d2) rest
  | _ => none

def dateMsMonth (y : Nat) : List Nat → Option Nat
  | m1 :: m2 :: 45 :: rest => do dateMsDay y (← parse2 m1 m2) rest
  | _ => none

def dateMs : List Nat → Option Nat
  | y1 :: y2 :: y3 :: y4 :: 45 :: rest => do dateMsMonth (← parse4 y1 y2 y3 y4) rest
  | _ => none

def pad2 (n : Nat) : List Nat := [48 + n / 10 % 10, 48 + n % 10]
def pad3 (n : Nat) : List Nat := [48 + n / 100 % 10, 48 + n / 10 % 10, 48 + n % 10]
def pad4 (n : Nat) : List Nat :=
  [48 + n / 1000 % 10, 48 + n / 100 % 10, 48 + n / 10 % 10, 48 + n % 10]

def maxIsoMs : Nat := 253375862399999

def isoRender (t : Nat) : List Nat :=
  let c := civilFromDays (t / 86400000)
  pad4 c.1 ++ [45] ++ pad2 c.2.1 ++ [45] ++ pad2 c.2.2 ++ [84] ++
    pad2 (t / 3600000 % 24) ++ [58] ++ pad2 (t / 60000 % 60) ++ [58] ++
    pad2 (t / 1000 % 60) ++ [46] ++ pad3 (t % 1000) ++ [90]

theorem digitVal_mod (k : Nat) : digitVal (48 + k % 10) = some (k % 10) := by
  unfold digitVal
  rw [if_pos (by omega)]
  congr 1
  omega

theorem daysInMonth_le (y m : Nat) : daysInMonth y m ≤ 31 := by
  unfold daysInMonth
  split_ifs <;> omega

theorem dateMs_full (Y Mo D h mi s f : Nat) (hY : Y ≤ 9999) (hMo : Mo ≤ 99)
    (hD : D ≤ 99) (hh : h ≤ 99) (hmi : mi ≤ 99) (hs : s ≤ 99) (hf : f ≤ 999) :
    dateMs (pad4 Y ++ [45] ++ pad2 Mo ++ [45] ++ pad2 D ++ [84] ++ pad2 h ++ [58] ++
      pad2 mi ++ [58] ++ pad2 s ++ [46] ++ pad3 f ++ [90]) = msOfParts Y Mo D h mi s f := by
  simp only [pad4, pad2, pad3, List.cons_append, List.nil_append]
  simp only [dateMs, dateMsMonth, dateMsDay, dateMsTime, dateMsMin, dateMsSec, dateMsEnd,
    digitVal_mod, parse2, parse3, parse4, Option.pure_def, Option.bind_eq_bind,
    Option.some_bind]
  rw [show Y / 1000 % 10 * 1000 + Y / 100 % 10 * 100 + Y / 10 % 10 * 10 + Y % 10 = Y by
    omega]
  rw [show Mo / 10 % 10 * 10 + Mo % 10 = Mo by omega]
  rw [show D / 10 % 10 * 10 + D % 10 = D by omega]
  rw [show h / 10 % 10 * 10 + h % 10 = h by omega]
  rw [show mi / 10 % 10 * 10 + mi % 10 = mi by omega]
  rw [show s / 10 % 10 * 10 + s % 10 = s by omega]
  rw [show f / 100 % 10 * 100 + f / 10 % 10 * 10 + f % 10 = f by omega]

theorem dateMs_isoRender (t : Nat) (h : t ≤ maxIsoMs) : dateMs (isoRender t) = some t := by
  have hdays : t / 86400000 ≤ 2932590 := by unfold maxIsoMs at h; omega
  obtain ⟨hy1, hy2, hm1, hm2, hd1, hd2, hrt⟩ := civil_roundtrip (t / 86400000) hdays
  have hD31 : (civilFromDays (t / 86400000)).2.2 ≤ 31 :=
    le_trans hd2 (daysInMonth_le _ _)
  simp only [isoRender]
  rw [dateMs_full _ _ _ _ _ _ _ (by omega) (by omega) (by omega) (by omega) (by omega)
    (by omega) (by omega)]
  unfold msOfParts
  rw [if_pos ⟨by omega, hy2, hm1, hm2, hd1, hd2, by omega, by omega, by omega, by omega⟩]
  rw [hrt, Option.some.injEq]
  omega


/-! ## Link Extractor (`extractFileIds`, embeds.ts)

The source matches
`https?:\/\/(?:drive|docs)\.google\.com\/[^\s'"\)]+\/(?:d|e|folders)\/([-\w]{25,})(?:\/[^\s'"\)]*[^\s"\)'.?!])?`
globally.  The matcher below implements exactly this pattern with JS semantics:
leftmost match, greedy quantifiers with backtracking, alternation tried left to
right, and `matchAll` resuming at the end of each match. -/

/-- JS whitespace class (the class complements below exclude it). -/
def isJsSpace (c : Nat) : Bool :=
  decide (c = 9 ∨ c = 10 ∨ c = 11 ∨ c = 12 ∨ c = 13 ∨ c = 32 ∨ c = 0xA0 ∨ c = 0x1680 ∨
    (0x2000 ≤ c ∧ c ≤ 0x200A) ∨ c = 0x2028 ∨ c = 0x2029 ∨ c = 0x202F ∨ c = 0x205F ∨
    c = 0x3000 ∨ c = 0xFEFF)

/-- The class excluding whitespace, apostrophe (39), double quote (34) and
closing paren (41). -/
def urlBodyChar (c : Nat) : Bool := !isJsSpace c && decide (c ≠ 39 ∧ c ≠ 34 ∧ c ≠ 41)

/-- File-id characters: word characters or a hyphen. -/
def idChar (c : Nat) : Bool :=
  decide ((65 ≤ c ∧ c ≤ 90) ∨ (97 ≤ c ∧ c ≤ 122) ∨ (48 ≤ c ∧ c ≤ 57) ∨ c = 95 ∨ c = 45)

/-- The class closing the optional path tail: `urlBodyChar` minus dot (46),
question mark (63) and exclamation mark (33). -/
def tailEndChar (c : Nat) : Bool := urlBodyChar c && decide (c ≠ 46 ∧ c ≠ 63 ∧ c ≠ 33)

def charAt (s : Str) (i : Nat) : Option Nat := s.get? i

/-- Literal match of `w` at offset `i` of `s`. -/
def litAt (s : Str) (i : Nat) (w : Str) : Bool := w.isPrefixOf (s.drop i)

/-- Length of the maximal run of characters satisfying `p` from a position. -/
def runLenGo (p : Nat → Bool) : List Nat → Nat
  | [] => 0
  | c :: cs => if p c then runLenGo p cs + 1 else 0

def runLen (p : Nat → Bool) (s : Str) (i : Nat) : Nat := runLenGo p (s.drop i)

/-- Greedy backtracking over a repetition count: try `f k`, `f (k-1)`, …, `f 0`. -/
def downFirst {α : Type} (f : Nat → Option α) : Nat → Option α
  | 0 => f 0
  | k + 1 => (f (k + 1)).orElse (fun _ => downFirst f k)

/-- The optional greedy tail group (a slash, a greedy star of `urlBodyChar`,
then one `tailEndChar`) starting at position `t`; `some` is its end position. -/
def matchTailOpt (s : Str) (t : Nat) : Option Nat :=
  match charAt s t with
  | some 47 =>
    downFirst (fun k =>
      match charAt s (t + 1 + k) with
      | some c => if tailEndChar c then some (t + 1 + k + 1) else none
      | none => none) (runLen urlBodyChar s (t + 1))
  | _ => none

/-- The captured id (`{25,}` of `idChar`, greedy) followed by the optional
tail; returns (capture start, capture end, match end).  The tail group being
optional, every count from the maximal run down to 25 yields a match, so the
greedy maximal id always wins. -/
def matchIdAndTail (s : Str) (r : Nat) : Option (Nat × Nat × Nat) :=
  let R := runLen idChar s r
  if R < 25 then none
  else
    downFirst (fun k =>
      match matchTailOpt s (r + 25 + k) with
      | some e2 => some (r, r + 25 + k, e2)
      | none => some (r, r + 25 + k, r + 25 + k)) (R - 25)

/-- A slash, the segment alternation (`d`, `e`, `folders` in order), a slash,
then the id and tail; `q` points at the first slash. -/
def matchSegIdTail (s : Str) (q : Nat) : Option (Nat × Nat × Nat) :=
  if charAt s q = some 47 then
    (if litAt s (q + 1) (strOf "d") && decide (charAt s (q + 2) = some 47) then
      matchIdAndTail s (q + 3)
    else none).orElse (fun _ =>
    (if litAt s (q + 1) (strOf "e") && decide (charAt s (q + 2) = some 47) then
      matchIdAndTail s (q + 3)
    else none).orElse (fun _ =>
    if litAt s (q + 1) (strOf "folders") && decide (charAt s (q + 8) = some 47) then
      matchIdAndTail s (q + 9)
    else none))
  else none

/-- The greedy one-or-more body after `.google.com/`, backtracking from the
longest run to find a position where the segment part matches. -/
def matchBody (s : Str) (p : Nat) : Option (Nat × Nat × Nat) :=
  let B := runLen urlBodyChar s p
  if B = 0 then none
  else downFirst (fun k => matchSegIdTail s (p + 1 + k)) (B - 1)

/-- Host alternation (`drive` | `docs`, first match wins; their second
characters differ so no backtracking across them is possible) followed by
`.google.com/`. -/
def matchHost (s : Str) (h : Nat) : Option (Nat × Nat × Nat) :=
  (if litAt s h (strOf "drive.google.com/") then matchBody s (h + 17) else none).orElse
    (fun _ => if litAt s h (strOf "docs.google.com/") then matchBody s (h + 16) else none)

/-- The whole pattern anchored at `i`: `http`, a greedy optional `s`, `://`,
then the host part; returns (capture start, capture end, match end). -/
def matchFrom (s : Str) (i : Nat) : Option (Nat × Nat × Nat) :=
  if litAt s i (strOf "http") then
    (if decide (charAt s (i + 4) = some 115) && litAt s (i + 5) (strOf "://") then
      matchHost s (i + 8)
    else none).orElse (fun _ =>
      if litAt s (i + 4) (strOf "://") then matchHost s (i + 7) else none)
  else none

/-- Leftmost match at or after `i` (fuelled scan); returns
(start, end, capture start, capture end). -/
def findFrom (s : Str) : Nat → Nat → Option (Nat × Nat × Nat × Nat)
  | 0, _ => none
  | fuel + 1, i =>
    match matchFrom s i with
    | some (cs, ce, e) => some (i, e, cs, ce)
    | none => if s.length ≤ i then none else findFrom s fuel (i + 1)

def substr (s : Str) (a b : Nat) : Str := (s.drop a).take (b - a)

/-- `content.matchAll(regex)` with the global flag: find matches left to
right, resuming at the end of the previous match (JS advances by one position
on an empty match). -/
def matchAllGo (s : Str) : Nat → Nat → List (Str × Str)
  | 0, _ => []
  | fuel + 1, i =>
    match findFrom s (s.length + 1) i with
    | none => []
    | some (st, e, cs, ce) =>
      (substr s st e, substr s cs ce) :: matchAllGo s fuel (if st < e then e else i + 1)

/-- `extractFileIds`: ordered `(url, fileId)` pairs extracted from a message. -/
def extractFileIds (content : Str) : List (Str × Str) :=
  matchAllGo content (content.length + 1) 0



/-! ## File type colors (gdrive.ts) -/

/-- Modelled from the spec: `src/gdrive.ts` is not among the repository files.
The spec describes the builder color as a "lookup by MIME type in a fixed
type→color table, falling back to a default for unmatched types"; we model
the table as a fixed association list of MIME type to color with a
distinguished fallback color for unmatched types. -/
def fileTypes : List (Str × Nat) :=
  [(strOf "application/vnd.google-apps.document", 0x4285F4),
   (strOf "application/vnd.google-apps.spreadsheet", 0x0F9D58),
   (strOf "application/vnd.google-apps.presentation", 0xF4B400),
   (strOf "application/vnd.google-apps.form", 0x673AB7),
   (strOf "application/vnd.google-apps.folder", 0x5F6368)]

/-- Modelled from the spec: the fallback color for MIME types the fixed
table does not list. -/
def fileTypesOthersColor : Nat := 0x9E9E9E

/-- The builder color: the fixed table entry for the MIME type if present,
the fallback otherwise. -/
def fileColor (mimeType : Str) : Nat :=
  match fileTypes.find? (fun p => decide (p.1 = mimeType)) with
  | some p => p.2
  | none => fileTypesOthersColor

/-! ## File Metadata Resolver (embeds.ts `createEmbedsMessage`, resolution
phase)

`driveClient.files.get` is modelled by an oracle `Str → ResolveResult`: a
successful response carrying the four requested fields (each possibly absent),
a not-found error, or any other error (carrying its message).  `Promise.all`
is modelled sequentially; when several lookups fail, the first failing id in
input order supplies the propagated error. -/

/-- The four fields requested from the metadata provider; each may be absent
in the response. -/
structure ResolvedFile where
  name : Option Str
  webViewLink : Option Str
  mimeType : Option Str
  modifiedTime : Option Str
deriving DecidableEq

/-- Outcome of one metadata lookup. -/
inductive ResolveResult where
  | found : ResolvedFile → ResolveResult
  | notFound : ResolveResult
  | otherError : Str → ResolveResult
deriving DecidableEq

/-- `true` iff the lookup outcome is an error other than not-found. -/
def isOtherError : ResolveResult → Bool
  | .otherError _ => true
  | _ => false

/-- The resolution phase: a not-found lookup is silently dropped, any other
error aborts, surviving files keep input order. -/
def resolveFiles (drive : Str → ResolveResult) : List Str → Except Str (List ResolvedFile)
  | [] => .ok []
  | fid :: fids =>
    match drive fid with
    | .otherError e => .error e
    | .notFound => resolveFiles drive fids
    | .found f => (resolveFiles drive fids).map (fun fs => f :: fs)

/-! ## Embed Set Builder (embeds.ts `createEmbedsMessage`, build phase) -/

/-- JS string truthiness for an optional string: `undefined`/`null` and the
empty string are falsy. -/
def strTruthy : Option Str → Bool
  | none => false
  | some [] => false
  | some (_ :: _) => true

/-- One embed as serialised by `EmbedBuilder#toJSON`: absent fields are
absent keys.  `extra` models further keys the platform adds to embeds it
returns (such as `type` or `content_scan_version`); the builder itself never
sets any. -/
structure EmbedData where
  title : Option Str
  url : Option Str
  color : Option Nat
  timestamp : Option Str
  extra : List (Str × Str)
deriving DecidableEq

/-- Build one embed from a resolved file at position `i`: a falsy required
field is a fatal `Missing required fields` error; the correlation id is
appended to the title only at position 0; `setTimestamp(new Date(...))`
followed by serialisation renders the parsed instant in ISO form, an
unparseable instant being the fatal `Invalid time value` error. -/
def buildEmbed (sourceId : Str) (i : Nat) (f : ResolvedFile) : Except Str EmbedData :=
  if strTruthy f.name && strTruthy f.webViewLink && strTruthy f.mimeType &&
      strTruthy f.modifiedTime then
    match dateMs (f.modifiedTime.getD []) with
    | none => .error (strOf "Invalid time value")
    | some ms =>
      .ok { title := some (if 0 < i then f.name.getD []
                           else appendInvisible (f.name.getD []) sourceId),
            url := f.webViewLink,
            color := some (fileColor (f.mimeType.getD [])),
            timestamp := some (isoRender ms),
            extra := [] }
  else .error (strOf "Missing required fields")

/-- Build all embeds, threading the position index. -/
def buildEmbedsGo (sourceId : Str) : Nat → List ResolvedFile → Except Str (List EmbedData)
  | _, [] => .ok []
  | i, f :: fs => do
    let e ← buildEmbed sourceId i f
    let rest ← buildEmbedsGo sourceId (i + 1) fs
    pure (e :: rest)

/-- The message payload: the embeds plus the `SuppressNotifications` flag. -/
structure EmbedsMessage where
  embeds : List EmbedData
  flagsSuppressNotifications : Bool
deriving DecidableEq

/-- `createEmbedsMessage`: resolve the ids, return no payload when nothing
resolved, else build the embed list (notification-suppressed). -/
def createEmbedsMessage (drive : Str → ResolveResult) (fileIds : List Str)
    (sourceId : Str) : Except Str (Option EmbedsMessage) := do
  let files ← resolveFiles drive fileIds
  if files.length = 0 then
    pure none
  else do
    let es ← buildEmbedsGo sourceId 0 files
    pure (some { embeds := es, flagsSuppressNotifications := true })

/-! ## Diff Engine (embeds.ts `updateEmbedsMessage`, comparison) -/

/-- `new Date(x ?? 0).getTime()`: an absent timestamp is the epoch, a present
one parses by the Date model (`none` standing for `NaN`). -/
def dateVal : Option Str → Option Nat
  | none => some 0
  | some s => dateMs s

/-- Timestamp comparison by parsed instant; an unparseable side (`NaN`)
never compares equal, `NaN !== NaN` being true in JS. -/
def tsEqualB (a b : Option Str) : Bool :=
  match dateVal a, dateVal b with
  | some x, some y => decide (x = y)
  | _, _ => false

def lookupExtra (l : List (Str × Str)) (k : Str) : Option Str :=
  (l.find? (fun p => decide (p.1 = k))).map (fun p => p.2)

/-- `deepMatch(new-without-timestamp, old)`: every key the new embed
serialises (timestamp removed) must be present with an equal value on the
old embed; keys only the old embed has are ignored. -/
def deepMatchNoTs (n old : EmbedData) : Bool :=
  (match n.title with | none => true | some t => decide (old.title = some t)) &&
  (match n.url with | none => true | some u => decide (old.url = some u)) &&
  (match n.color with | none => true | some c => decide (old.color = some c)) &&
  n.extra.all (fun kv => decide (lookupExtra old.extra kv.1 = some kv.2))

/-- The edit condition: lengths differ, or some old embed has no counterpart,
a timestamp mismatch by parsed instant, or a structural mismatch. -/
def embedsDiffer (oldEmbeds newEmbeds : List EmbedData) : Bool :=
  decide (oldEmbeds.length ≠ newEmbeds.length) ||
  (List.range oldEmbeds.length).any (fun i =>
    match oldEmbeds.get? i, newEmbeds.get? i with
    | some oldE, some nE => !tsEqualB oldE.timestamp nE.timestamp || !deepMatchNoTs nE oldE
    | some _, none => true
    | _, _ => false)

/-! ## Native Embed Suppressor (embeds.ts `suppressEmbeds`)

URL normalization (`normalize-url` with force-https, strip query, hash and
explicit default port) is modelled by an abstract function `norm`. -/

/-- The suppression decision: at least one auto-preview, and every preview
URL is present, non-empty and normalizes equal to some extracted file URL
normalized the same way. -/
def shouldSuppress (norm : Str → Str) (embedsUrls : List (Option Str))
    (fileUrls : List Str) : Bool :=
  decide (0 < embedsUrls.length) &&
  embedsUrls.all (fun u =>
    if strTruthy u then fileUrls.any (fun f => decide (norm (u.getD []) = norm f))
    else false)

/-- `suppressEmbeds`: `some b` is a toggle request to state `b`, `none` means
no request because the decided state equals the current flag. -/
def suppressEmbedsDecision (norm : Str → Str) (currentSuppressed : Bool)
    (embedsUrls : List (Option Str)) (fileUrls : List Str) : Option Bool :=
  let s := shouldSuppress norm embedsUrls fileUrls
  if currentSuppressed = s then none else some s

/-! ## Shadow Message Locator (embeds.ts `retrieveOldEmbedsMessage`)

A channel is a list of messages; Discord snowflake ids are Nats rendered in
decimal, monotonically time-ordered.  A history fetch with `after` and
`limit: 10` returns the 10 oldest messages with id above the anchor, ordered
newest first; `Collection#sort` is the stable ascending sort.  Retries see
the channel through an oracle indexed by attempt number, so a racing send
between attempts is expressible; the model returns the result together with
the number of fetches and the total milliseconds slept. -/

structure ChannelMsg where
  id : Nat
  authorId : Nat
  createdTimestamp : Nat
  embeds : List EmbedData
  flagsSuppressed : Bool
  content : Str
deriving DecidableEq

def digitsOfGo : Nat → Nat → Str
  | 0, _ => []
  | fuel + 1, n => if n < 10 then [48 + n] else digitsOfGo fuel (n / 10) ++ [48 + n % 10]

/-- Decimal rendering of a message id. -/
def idString (n : Nat) : Str := digitsOfGo (n + 1) n

/-- Insert after existing entries of equal or smaller key (stable). -/
def insertLeBy (key : ChannelMsg → Nat) (m : ChannelMsg) :
    List ChannelMsg → List ChannelMsg
  | [] => [m]
  | x :: xs => if key x ≤ key m then x :: insertLeBy key m xs else m :: x :: xs

/-- Stable insertion sort ascending by `key`. -/
def sortLeBy (key : ChannelMsg → Nat) (l : List ChannelMsg) : List ChannelMsg :=
  l.foldl (fun acc m => insertLeBy key m acc) []

/-- `channel.messages.fetch (after anchor, limit 10)`. -/
def fetchAfter (channel : List ChannelMsg) (afterId : Nat) : List ChannelMsg :=
  ((sortLeBy (fun m => m.id) (channel.filter (fun m => decide (afterId < m.id)))).take
    10).reverse

/-- The find predicate on one candidate: no or falsy first-embed title is a
non-match; otherwise the title is decoded (an undecodable title throws) and
compared to the source id. -/
def shadowTest (sourceId : Nat) (m : ChannelMsg) : Except Str Bool :=
  match m.embeds.head? with
  | none => .ok false
  | some e =>
    if strTruthy e.title then
      (decodeAppendedInvisible (e.title.getD [])).map
        (fun s => decide (s = idString sourceId))
    else .ok false

/-- `Collection#find` with a throwing predicate: first match, errors
propagate. -/
def findShadowIn (sourceId : Nat) : List ChannelMsg → Except Str (Option ChannelMsg)
  | [] => .ok none
  | m :: ms => do
    let b ← shadowTest sourceId m
    if b then pure (some m) else findShadowIn sourceId ms

/-- The candidate list of one attempt: fetched history, bot-authored only,
sorted oldest first by creation timestamp. -/
def locatorCandidates (channel : List ChannelMsg) (botUserId sourceId : Nat) :
    List ChannelMsg :=
  sortLeBy (fun m => m.createdTimestamp)
    ((fetchAfter channel sourceId).filter (fun m => decide (m.authorId = botUserId)))

/-- One fetch-and-scan attempt. -/
def attemptOnce (channel : List ChannelMsg) (botUserId sourceId : Nat) :
    Except Str (Option ChannelMsg) :=
  findShadowIn sourceId (locatorCandidates channel botUserId sourceId)

/-- The retry loop: return on a find or an exhausted budget, else sleep
1000 ms and retry with the budget decremented.  Yields (result, fetches,
milliseconds slept). -/
def retrieveGo (oracle : Nat → List ChannelMsg) (botUserId sourceId attempt : Nat) :
    Nat → Except Str (Option ChannelMsg) × Nat × Nat
  | 0 => (attemptOnce (oracle attempt) botUserId sourceId, 1, 0)
  | mr + 1 =>
    match attemptOnce (oracle attempt) botUserId sourceId with
    | .error e => (.error e, 1, 0)
    | .ok (some m) => (.ok (some m), 1, 0)
    | .ok none =>
      let r := retrieveGo oracle botUserId sourceId (attempt + 1) mr
      (r.1, r.2.1 + 1, r.2.2 + 1000)

def retrieveOldEmbedsMessage (oracle : Nat → List ChannelMsg)
    (botUserId sourceId maxRetries : Nat) :
    Except Str (Option ChannelMsg) × Nat × Nat :=
  retrieveGo oracle botUserId sourceId 0 maxRetries

/-! ## Synchronization Orchestrator (embeds.ts `updateEmbedsMessage`)

The channel is the whole world; sends append a bot message under a fresh id
above every existing id (snowflakes grow with time), edits replace embeds in
place, deletes remove by id, the suppression toggle sets the source flag.
Within one run the channel is read consistently (the sequential model of the
`Promise.all`).  The platform is modelled as storing a sent payload
unchanged; tolerance to platform re-rendering of returned embeds is the Diff
Engine's own concern. -/

structure Effects where
  sends : Nat
  edits : Nat
  deletes : Nat
  suppressCalls : Nat
deriving DecidableEq

structure UpdateOptions where
  isNewlyCreated : Bool
  isEmbedsSuppressed : Bool

def freshId (channel : List ChannelMsg) : Nat :=
  (channel.foldl (fun a m => max a m.id) 0) + 1

def sendMsg (channel : List ChannelMsg) (authorId : Nat) (embeds : List EmbedData) :
    List ChannelMsg :=
  channel ++ [{ id := freshId channel, authorId := authorId,
                createdTimestamp := freshId channel, embeds := embeds,
                flagsSuppressed := false, content := [] }]

def deleteMsg (channel : List ChannelMsg) (mid : Nat) : List ChannelMsg :=
  channel.filter (fun m => decide (m.id ≠ mid))

def editMsg (channel : List ChannelMsg) (mid : Nat) (embeds : List EmbedData) :
    List ChannelMsg :=
  channel.map (fun m => if m.id = mid then { m with embeds := embeds } else m)

def setSuppressed (channel : List ChannelMsg) (mid : Nat) (b : Bool) :
    List ChannelMsg :=
  channel.map (fun m => if m.id = mid then { m with flagsSuppressed := b } else m)

/-- The suppressor step on the source message: look the source up, decide,
toggle only on a change; returns the channel and the number of toggle
requests issued. -/
def applySuppression (norm : Str → Str) (channel : List ChannelMsg) (sourceId : Nat)
    (fileUrls : List Str) : List ChannelMsg × Nat :=
  match channel.find? (fun m => decide (m.id = sourceId)) with
  | none => (channel, 0)
  | some src =>
    match suppressEmbedsDecision norm src.flagsSuppressed
        (src.embeds.map (fun e => e.url)) fileUrls with
    | none => (channel, 0)
    | some b => (setSuppressed channel sourceId b, 1)

/-- One orchestrator run on a source message: extract, locate the old shadow
(skipped when newly created, retry budget 2 otherwise), build the new embed
set, then dispatch (nothing / send / delete / edit-if-different) and finally
run the suppressor unless the triggering event was this system's own
suppression toggle. -/
def updateEmbedsMessage (norm : Str → Str) (drive : Str → ResolveResult)
    (botUserId sourceId : Nat) (opts : UpdateOptions) (channel : List ChannelMsg) :
    Except Str (List ChannelMsg × Effects) := do
  match channel.find? (fun m => decide (m.id = sourceId)) with
  | none => .error (strOf "source message not found")
  | some src =>
    let pairs := extractFileIds src.content
    let old ← if opts.isNewlyCreated then pure none
      else (retrieveOldEmbedsMessage (fun _ => channel) botUserId sourceId 2).1
    let newM ← createEmbedsMessage drive (pairs.map (fun p => p.2)) (idString sourceId)
    match old, newM with
    | none, none => pure (channel, ⟨0, 0, 0, 0⟩)
    | none, some n =>
      let c1 := sendMsg channel botUserId n.embeds
      let s := if opts.isEmbedsSuppressed then (c1, 0)
               else applySuppression norm c1 sourceId (pairs.map (fun p => p.1))
      pure (s.1, ⟨1, 0, 0, s.2⟩)
    | some o, none =>
      let c1 := deleteMsg channel o.id
      let s := if opts.isEmbedsSuppressed then (c1, 0)
               else applySuppression norm c1 sourceId (pairs.map (fun p => p.1))
      pure (s.1, ⟨0, 0, 1, s.2⟩)
    | some o, some n =>
      let differs := embedsDiffer o.embeds n.embeds
      let c1 := if differs then editMsg channel o.id n.embeds else channel
      let s := if opts.isEmbedsSuppressed then (c1, 0)
               else applySuppression norm c1 sourceId (pairs.map (fun p => p.1))
      pure (s.1, ⟨0, if differs then 1 else 0, 0, s.2⟩)

/-- Iterated runs with the not-newly-created options, errors propagating. -/
def iterUpdate (norm : Str → Str) (drive : Str → ResolveResult)
    (botUserId sourceId : Nat) : Nat → List ChannelMsg → Except Str (List ChannelMsg)
  | 0, channel => .ok channel
  | k + 1, channel => do
    let r ← updateEmbedsMessage norm drive botUserId sourceId
      ⟨false, false⟩ channel
    iterUpdate norm drive botUserId sourceId k r.1


/-! ## Helper lemmas for the claims -/

theorem idString_ne_nil (n : Nat) : idString n ≠ [] := by
  unfold idString digitsOfGo
  by_cases h : n < 10
  · simp [h]
  · simp [h]

theorem retrieveGo_bounds (oracle : Nat → List ChannelMsg) (b s : Nat) (mr : Nat) :
    ∀ a, (retrieveGo oracle b s a mr).2.1 ≤ mr + 1 ∧
      (retrieveGo oracle b s a mr).2.2 ≤ 1000 * mr := by
  induction mr with
  | zero => intro a; exact ⟨by simp [retrieveGo], by simp [retrieveGo]⟩
  | succ k ih =>
    intro a
    have h2 := ih (a + 1)
    simp only [retrieveGo]
    cases h : attemptOnce (oracle a) b s with
    | error e => simp
    | ok o =>
      cases o with
      | none =>
        obtain ⟨i1, i2⟩ := h2
        constructor
        · show (retrieveGo oracle b s (a + 1) k).2.1 + 1 ≤ k + 1 + 1
          omega
        · show (retrieveGo oracle b s (a + 1) k).2.2 + 1000 ≤ 1000 * (k + 1)
          omega
      | some m => simp

theorem buildEmbedsGo_titles (sourceId : Str) :
    ∀ (files : List ResolvedFile) (k : Nat) (es : List EmbedData),
      buildEmbedsGo sourceId k files = .ok es →
      es.length = files.length ∧
      ∀ i f e, files.get? i = some f → es.get? i = some e →
        e.title = some (if k + i = 0 then appendInvisible (f.name.getD []) sourceId
                        else f.name.getD []) := by
  intro files
  induction files with
  | nil =>
    intro k es h
    simp only [buildEmbedsGo] at h
    cases h
    exact ⟨rfl, by intro i f e hf; simp at hf⟩
  | cons f0 fs ih =>
    intro k es h
    simp only [buildEmbedsGo, bind, Except.bind] at h
    cases hb : buildEmbed sourceId k f0 with
    | error e0 => rw [hb] at h; exact absurd h (by simp)
    | ok e0 =>
      rw [hb] at h
      cases hr : buildEmbedsGo sourceId (k + 1) fs with
      | error er => rw [hr] at h; exact absurd h (by simp)
      | ok es2 =>
        rw [hr] at h
        simp only [pure, Except.pure, Except.ok.injEq] at h
        obtain ⟨hl, ht⟩ := ih (k + 1) es2 hr
        subst h
        refine ⟨by simp [hl], ?_⟩
        intro i f e hf he
        cases i with
        | zero =>
          simp only [List.get?] at hf he
          cases hf; cases he
          simp only [buildEmbed] at hb
          by_cases htr : (strTruthy f0.name && strTruthy f0.webViewLink &&
              strTruthy f0.mimeType && strTruthy f0.modifiedTime) = true
          · rw [if_pos htr] at hb
            cases hd : dateMs (f0.modifiedTime.getD []) with
            | none => rw [hd] at hb; exact absurd hb (by simp)
            | some ms =>
              rw [hd] at hb
              cases hb
              simp only [Nat.add_zero]
              by_cases hk : k = 0
              · subst hk; simp
              · rw [if_neg hk, if_pos (by omega)]
          · rw [if_neg htr] at hb; exact absurd hb (by simp)
        | succ j =>
          simp only [List.get?] at hf he
          have := ht j f e hf he
          rw [this]
          have hkj : k + 1 + j ≠ 0 := by omega
          have hkj2 : k + (j + 1) ≠ 0 := by omega
          rw [if_neg hkj, if_neg hkj2]

/-! ## The claims -/

/-- C1 counterexample: the round trip fails on a payload beginning with
U+FEFF, because the decoder strips a byte-order mark: decoding the encoding
of the one-character string U+FEFF yields the empty string. -/
theorem C1_codec_roundtrip_counterexample :
    decode (encode [0xFEFF]) = .ok [] ∧ ([0xFEFF] : Str) ≠ [] := by
  exact ⟨by decide, by decide⟩

/-- C1 (amended): for every string of Unicode scalar values that does not
begin with U+FEFF, decoding the encoding yields the string back:
decode (encode s) = s. -/
theorem C1_codec_roundtrip (s : Str) (h : ∀ c ∈ s, ValidScalar c)
    (hb : s.head? ≠ some 0xFEFF) : decode (encode s) = .ok s :=
  decode_encode s h hb

/-- Witness for C1: the round trip on a concrete message id. -/
theorem C1_codec_roundtrip_witness :
    decode (encode (strOf "1234567890123456789")) = .ok (strOf "1234567890123456789") :=
  C1_codec_roundtrip (strOf "1234567890123456789") (by decide) (by decide)

/-- C5: the builder appends the correlation id via the codec only to the
title of the embed at position 0; every embed at a later position carries
the plain file name. -/
theorem C5_builder_titles (sourceId : Str) (files : List ResolvedFile)
    (es : List EmbedData) (h : buildEmbedsGo sourceId 0 files = .ok es) :
    es.length = files.length ∧
    ∀ i f e, files.get? i = some f → es.get? i = some e →
      (i = 0 → e.title = some (appendInvisible (f.name.getD []) sourceId)) ∧
      (0 < i → e.title = some (f.name.getD [])) := by
  obtain ⟨hl, ht⟩ := buildEmbedsGo_titles sourceId files 0 es h
  refine ⟨hl, fun i f e hf he => ⟨fun h0 => ?_, fun h0 => ?_⟩⟩
  · have h2 := ht i f e hf he
    subst h0
    simpa using h2
  · have h2 := ht i f e hf he
    rw [if_neg (by omega)] at h2
    exact h2

def c5file1 : ResolvedFile :=
  { name := some (strOf "A"), webViewLink := some (strOf "u"),
    mimeType := some (strOf "m"),
    modifiedTime := some (strOf "2024-01-01T00:00:00.000Z") }

def c5file2 : ResolvedFile :=
  { name := some (strOf "B"), webViewLink := some (strOf "u2"),
    mimeType := some (strOf "m"),
    modifiedTime := some (strOf "2024-01-01T00:00:00.000Z") }

def c5embed1 : EmbedData :=
  { title := some (appendInvisible (strOf "A") (strOf "42")),
    url := some (strOf "u"), color := some fileTypesOthersColor,
    timestamp := some (isoRender 1704067200000), extra := [] }

def c5embed2 : EmbedData :=
  { title := some (strOf "B"), url := some (strOf "u2"),
    color := some fileTypesOthersColor,
    timestamp := some (isoRender 1704067200000), extra := [] }

/-- Witness for C5 on a concrete two-file build. -/
theorem C5_builder_titles_witness :
    c5embed1.title = some (appendInvisible (strOf "A") (strOf "42")) ∧
    c5embed2.title = some (strOf "B") :=
  ⟨((C5_builder_titles (strOf "42") [c5file1, c5file2] [c5embed1, c5embed2]
      (by decide)).2 0 c5file1 c5embed1 (by decide) (by decide)).1 rfl,
   ((C5_builder_titles (strOf "42") [c5file1, c5file2] [c5embed1, c5embed2]
      (by decide)).2 1 c5file2 c5embed2 (by decide) (by decide)).2 (by decide)⟩

def c6Url1 : Str :=
  strOf "https://drive.google.com/file/d/AAAAAAAAAAAAAAAAAAAAAAAAA/view?usp=sharing"

def c6Id1 : Str := strOf "AAAAAAAAAAAAAAAAAAAAAAAAA"

def c6Url3 : Str := strOf "https://drive.google.com/drive/folders/CCCCCCCCCCCCCCCCCCCCCCCCCC"

def c6Id3 : Str := strOf "CCCCCCCCCCCCCCCCCCCCCCCCCC"

/-- The distinguished text: a well-formed file link, a malformed form link
whose identifier has only 24 characters, and a well-formed folder link. -/
def c6Text : Str :=
  strOf "See https://drive.google.com/file/d/AAAAAAAAAAAAAAAAAAAAAAAAA/view?usp=sharing and https://docs.google.com/d/e/BBBBBBBBBBBBBBBBBBBBBBBB/viewform plus https://drive.google.com/drive/folders/CCCCCCCCCCCCCCCCCCCCCCCCCC end"

set_option maxRecDepth 1000000 in
/-- C6: on the distinguished text with two well-formed links and one link
whose identifier has only 24 characters, extraction returns exactly the two
well-formed (url, fileId) pairs in appearance order; and a link appearing
twice yields its pair twice (duplicates preserved). -/
theorem C6_extractor_instances :
    extractFileIds c6Text = [(c6Url1, c6Id1), (c6Url3, c6Id3)] ∧
    extractFileIds (c6Url1 ++ (32 : Nat) :: c6Url1) =
      [(c6Url1, c6Id1), (c6Url1, c6Id1)] := by
  exact ⟨by decide, by decide⟩

/-- C7: resolution keeps exactly the successfully resolved files in input
order (a filterMap of the input, so not-found ids are dropped and order is
preserved), and the first id failing with an error other than not-found
aborts the whole resolution with that error. -/
theorem C7_resolver (drive : Str → ResolveResult) (ids : List Str) :
    ((∀ i ∈ ids, isOtherError (drive i) = false) →
      resolveFiles drive ids = .ok (ids.filterMap (fun i =>
        match drive i with | .found f => some f | _ => none))) ∧
    (∀ pre i post e, ids = pre ++ i :: post → drive i = .otherError e →
      (∀ j ∈ pre, isOtherError (drive j) = false) →
      resolveFiles drive ids = .error e) := by
  constructor
  · induction ids with
    | nil => intro h; simp [resolveFiles]
    | cons i0 is ih =>
      intro h
      have h0 := h i0 (by simp)
      have hrest := ih (fun j hj => h j (by simp [hj]))
      simp only [resolveFiles, List.filterMap]
      cases hd : drive i0 with
      | otherError e => rw [hd] at h0; simp [isOtherError] at h0
      | notFound => rw [hrest]
      | found f => rw [hrest]; simp [Except.map]
  · intro pre
    induction pre generalizing ids with
    | nil =>
      intro i post e hids hd _
      subst hids
      simp only [List.nil_append, resolveFiles]
      rw [hd]
    | cons p ps ih =>
      intro i post e hids hd hpre
      subst hids
      simp only [List.cons_append, resolveFiles]
      have hrest := ih (ps ++ i :: post) i post e rfl hd
        (fun j hj => hpre j (by simp [hj]))
      have hp0 := hpre p (by simp)
      cases hdp : drive p with
      | otherError e2 => rw [hdp] at hp0; simp [isOtherError] at hp0
      | notFound => exact hrest
      | found f => rw [List.append_eq, hrest]; simp [Except.map]

def c7drive : Str → ResolveResult := fun i =>
  if i = strOf "a" then
    .found { name := some (strOf "A"), webViewLink := some (strOf "ua"),
             mimeType := some (strOf "m"), modifiedTime := some (strOf "t") }
  else if i = strOf "x" then .notFound
  else .otherError (strOf "boom")

/-- Witness for C7: a concrete resolution with a not-found id dropped, and a
concrete aborted resolution. -/
theorem C7_resolver_witness :
    resolveFiles c7drive [strOf "a", strOf "x", strOf "a"] =
      .ok ([strOf "a", strOf "x", strOf "a"].filterMap (fun i =>
        match c7drive i with | .found f => some f | _ => none)) ∧
    resolveFiles c7drive [strOf "z"] = .error (strOf "boom") :=
  ⟨(C7_resolver c7drive [strOf "a", strOf "x", strOf "a"]).1 (by decide),
   (C7_resolver c7drive [strOf "z"]).2 [] (strOf "z") [] (strOf "boom") rfl
     (by decide) (by decide)⟩

/-- C9: a text containing none of the 16 reserved invisible code points
decodes to the empty string, not to an error; hence the locator treats a bot
message whose first embed title carries no invisible payload as a non-match
and moves on, never as a failure. -/
theorem C9_no_invisible_nonmatch (text : Str) (h : ∀ c ∈ text, c ∉ invisibleChars) :
    decodeAppendedInvisible text = .ok [] ∧
    ∀ (src : Nat) (m : ChannelMsg) (ms : List ChannelMsg) (e : EmbedData),
      m.embeds.head? = some e → e.title = some text →
      findShadowIn src (m :: ms) = findShadowIn src ms := by
  have hdec := decodeAppendedInvisible_no_invisible text h
  refine ⟨hdec, fun src m ms e he ht => ?_⟩
  have hne := idString_ne_nil src
  have hst : shadowTest src m = .ok false := by
    unfold shadowTest
    rw [he]
    show (if strTruthy e.title = true then
            Except.map (fun s => decide (s = idString src))
              (decodeAppendedInvisible (e.title.getD []))
          else Except.ok false) = .ok false
    rw [ht]
    cases text with
    | nil => simp [strTruthy]
    | cons c cs =>
      rw [if_pos (by rfl)]
      simp only [Option.getD_some]
      rw [hdec]
      show Except.ok (decide (([] : Str) = idString src)) = Except.ok false
      have hd2 : decide (([] : Str) = idString src) = false :=
        decide_eq_false (fun hx => hne hx.symm)
      rw [hd2]
  simp only [findShadowIn, bind, Except.bind]
  rw [hst]
  simp

/-- Witness for C9: a concrete invisible-free title decodes to the empty
string without error. -/
theorem C9_no_invisible_nonmatch_witness :
    decodeAppendedInvisible (strOf "Quarterly Report.pdf") = .ok [] :=
  (C9_no_invisible_nonmatch (strOf "Quarterly Report.pdf") (by decide)).1

/-- C10: the locator retry loop is bounded: for every history oracle it
performs at most maxRetries + 1 fetches and sleeps at most
1000 · maxRetries milliseconds before returning. -/
theorem C10_retrieve_resources (oracle : Nat → List ChannelMsg)
    (botUserId sourceId maxRetries : Nat) :
    (retrieveOldEmbedsMessage oracle botUserId sourceId maxRetries).2.1 ≤
      maxRetries + 1 ∧
    (retrieveOldEmbedsMessage oracle botUserId sourceId maxRetries).2.2 ≤
      1000 * maxRetries :=
  retrieveGo_bounds oracle botUserId sourceId maxRetries 0

theorem get?_zip_mem :
    ∀ (l1 l2 : List EmbedData) (i : Nat) (a b : EmbedData),
      l1.get? i = some a → l2.get? i = some b → (a, b) ∈ l1.zip l2 := by
  intro l1
  induction l1 with
  | nil => intro l2 i a b h1 h2; simp [List.get?] at h1
  | cons x xs ih =>
    intro l2 i a b h1 h2
    cases l2 with
    | nil => simp [List.get?] at h2
    | cons y ys =>
      rw [List.zip_cons_cons]
      cases i with
      | zero =>
        simp only [List.get?] at h1 h2
        cases h1; cases h2
        exact List.mem_cons_self _ _
      | succ j =>
        simp only [List.get?] at h1 h2
        exact List.mem_cons_of_mem _ (ih ys j a b h1 h2)

theorem zip_self_mem :
    ∀ (l : List EmbedData) (p : EmbedData × EmbedData),
      p ∈ l.zip l → p.1 = p.2 ∧ p.1 ∈ l := by
  intro l
  induction l with
  | nil => intro p h; simp [List.zip] at h
  | cons x xs ih =>
    intro p h
    rw [List.zip_cons_cons] at h
    rcases List.mem_cons.mp h with h1 | h2
    · subst h1; exact ⟨rfl, List.mem_cons_self _ _⟩
    · obtain ⟨h3, h4⟩ := ih p h2
      exact ⟨h3, List.mem_cons_of_mem _ h4⟩

theorem embedsDiffer_cons (o n : EmbedData) (os ns : List EmbedData)
    (h : os.length = ns.length) :
    embedsDiffer (o :: os) (n :: ns) =
      ((!tsEqualB o.timestamp n.timestamp || !deepMatchNoTs n o) ||
        embedsDiffer os ns) := by
  unfold embedsDiffer
  have h1 : decide ((o :: os).length ≠ (n :: ns).length) = false := by simp [h]
  have h2 : decide (os.length ≠ ns.length) = false := by simp [h]
  rw [h1, h2]
  simp only [Bool.false_or, List.length_cons]
  rw [List.range_succ_eq_map, List.any_cons, List.any_map]
  rfl

theorem embedsDiffer_len_ne (olds news : List EmbedData)
    (h : olds.length ≠ news.length) : embedsDiffer olds news = true := by
  unfold embedsDiffer
  rw [decide_eq_true h, Bool.true_or]

theorem embedsDiffer_eq_false_iff :
    ∀ (olds news : List EmbedData),
      embedsDiffer olds news = false ↔
        (olds.length = news.length ∧ ∀ p ∈ olds.zip news,
          tsEqualB p.1.timestamp p.2.timestamp = true ∧
          deepMatchNoTs p.2 p.1 = true) := by
  intro olds
  induction olds with
  | nil =>
    intro news
    cases news with
    | nil => simp [embedsDiffer]
    | cons n ns => simp [embedsDiffer]
  | cons o os ih =>
    intro news
    cases news with
    | nil => simp [embedsDiffer]
    | cons n ns =>
      by_cases hlen : os.length = ns.length
      · rw [embedsDiffer_cons o n os ns hlen]
        rw [Bool.or_eq_false_iff, Bool.or_eq_false_iff]
        rw [ih ns]
        constructor
        · rintro ⟨⟨hts, hdm⟩, _, hall⟩
          refine ⟨by simp [hlen], fun p hp => ?_⟩
          rw [List.zip_cons_cons] at hp
          rcases List.mem_cons.mp hp with h1 | h2
          · subst h1
            exact ⟨by simpa using hts, by simpa using hdm⟩
          · exact hall p h2
        · rintro ⟨_, hall⟩
          have hhead := hall (o, n) (by rw [List.zip_cons_cons]; exact List.mem_cons_self _ _)
          refine ⟨⟨by simp [hhead.1], by simp [hhead.2]⟩, hlen, fun p hp => ?_⟩
          exact hall p (by rw [List.zip_cons_cons]; exact List.mem_cons_of_mem _ hp)
      · constructor
        · intro hfalse
          exfalso
          have := embedsDiffer_len_ne (o :: os) (n :: ns) (by simp [hlen])
          rw [this] at hfalse
          exact Bool.true_eq_false_eq_False hfalse
        · rintro ⟨h1, _⟩
          exact absurd (by simpa using h1) hlen

/-- C3: the Diff Engine compares timestamps as parsed instants and all other
fields structurally, ignoring keys present only on the old embed: lists that
agree on title, url and color and whose timestamps parse to the same instant
diff as equal regardless of timestamp rendering or old-side extra keys; a
length mismatch, a parsed-instant mismatch, or any other field mismatch
diffs as different. -/
theorem C3_diff_timestamp_tolerance :
    (∀ olds news : List EmbedData, olds.length = news.length →
      (∀ p ∈ olds.zip news, p.2.title = p.1.title ∧ p.2.url = p.1.url ∧
        p.2.color = p.1.color ∧ p.2.extra = [] ∧
        dateVal p.2.timestamp ≠ none ∧
        dateVal p.2.timestamp = dateVal p.1.timestamp) →
      embedsDiffer olds news = false) ∧
    (∀ olds news : List EmbedData, olds.length ≠ news.length →
      embedsDiffer olds news = true) ∧
    (∀ (olds news : List EmbedData) (i : Nat) (oldE nE : EmbedData) (v w : Nat),
      olds.get? i = some oldE → news.get? i = some nE →
      dateVal oldE.timestamp = some v → dateVal nE.timestamp = some w → v ≠ w →
      embedsDiffer olds news = true) ∧
    (∀ (olds news : List EmbedData) (i : Nat) (oldE nE : EmbedData) (t : Str),
      olds.get? i = some oldE → news.get? i = some nE →
      nE.title = some t → oldE.title ≠ some t →
      embedsDiffer olds news = true) := by
  have hterm : ∀ (olds news : List EmbedData) (i : Nat) (oldE nE : EmbedData),
      olds.get? i = some oldE → news.get? i = some nE →
      (!tsEqualB oldE.timestamp nE.timestamp || !deepMatchNoTs nE oldE) = true →
      embedsDiffer olds news = true := by
    intro olds news i oldE nE h1 h2 hb
    by_cases hlen : olds.length = news.length
    · unfold embedsDiffer
      rw [Bool.or_eq_true]
      right
      rw [List.any_eq_true]
      refine ⟨i, List.mem_range.mpr ?_, ?_⟩
      · exact (List.get?_eq_some.mp h1).1
      · rw [h1, h2]
        exact hb
    · exact embedsDiffer_len_ne olds news hlen
  refine ⟨?_, embedsDiffer_len_ne, ?_, ?_⟩
  · intro olds news hlen hp
    rw [embedsDiffer_eq_false_iff]
    refine ⟨hlen, fun p hp2 => ?_⟩
    obtain ⟨h1, h2, h3, h4, h5, h6⟩ := hp p hp2
    constructor
    · unfold tsEqualB
      cases hv : dateVal p.1.timestamp with
      | none => rw [hv] at h6; exact absurd h6 h5
      | some v =>
        rw [hv] at h6
        rw [h6]
        simp
    · unfold deepMatchNoTs
      rw [h1, h2, h3, h4]
      cases p.1.title <;> cases p.1.url <;> cases p.1.color <;> simp
  · intro olds news i oldE nE v w h1 h2 hv hw hne
    refine hterm olds news i oldE nE h1 h2 ?_
    have hts : tsEqualB oldE.timestamp nE.timestamp = false := by
      unfold tsEqualB
      rw [hv, hw]
      exact decide_eq_false hne
    rw [hts]
    simp
  · intro olds news i oldE nE t h1 h2 ht hto
    refine hterm olds news i oldE nE h1 h2 ?_
    have hdm : deepMatchNoTs nE oldE = false := by
      unfold deepMatchNoTs
      simp only [ht]
      simp [hto]
    rw [hdm]
    simp

def c3oldEmbed : EmbedData :=
  { title := some (strOf "Doc"), url := some (strOf "https://u"), color := some 3,
    timestamp := some (strOf "2024-01-01T00:00:00Z"),
    extra := [(strOf "type", strOf "rich")] }

def c3newEmbed : EmbedData :=
  { title := some (strOf "Doc"), url := some (strOf "https://u"), color := some 3,
    timestamp := some (strOf "2024-01-01T00:00:00.000Z"), extra := [] }

/-- Witness for C3: the same instant rendered without and with milliseconds,
plus a platform-added key on the old side, diffs as equal. -/
theorem C3_diff_timestamp_tolerance_witness :
    embedsDiffer [c3oldEmbed] [c3newEmbed] = false :=
  C3_diff_timestamp_tolerance.1 [c3oldEmbed] [c3newEmbed] rfl (by decide)

/-- C8: the suppressor decides suppress exactly when there is at least one
auto-preview and every auto-preview URL is present, non-empty and normalizes
equal to some extracted file URL normalized the same way; the toggle request
is issued exactly when the decision differs from the current flag, and then
requests the decided state. -/
theorem C8_suppressor (norm : Str → Str) (cur : Bool)
    (embedsUrls : List (Option Str)) (fileUrls : List Str) :
    (shouldSuppress norm embedsUrls fileUrls = true ↔
      embedsUrls ≠ [] ∧ ∀ u ∈ embedsUrls, strTruthy u = true ∧
        ∃ f ∈ fileUrls, norm (u.getD []) = norm f) ∧
    (suppressEmbedsDecision norm cur embedsUrls fileUrls = none ↔
      cur = shouldSuppress norm embedsUrls fileUrls) ∧
    (∀ b, suppressEmbedsDecision norm cur embedsUrls fileUrls = some b →
      b = shouldSuppress norm embedsUrls fileUrls ∧ b ≠ cur) := by
  refine ⟨?_, ?_, ?_⟩
  · unfold shouldSuppress
    rw [Bool.and_eq_true, decide_eq_true_eq, List.all_eq_true]
    constructor
    · rintro ⟨h1, h2⟩
      refine ⟨List.ne_nil_of_length_pos h1, fun u hu => ?_⟩
      have h3 := h2 u hu
      cases hs : strTruthy u with
      | false => rw [hs] at h3; simp at h3
      | true =>
        simp only [hs, if_true, List.any_eq_true, decide_eq_true_eq] at h3
        exact ⟨rfl, h3⟩
    · rintro ⟨h1, h2⟩
      refine ⟨List.length_pos.mpr h1, fun u hu => ?_⟩
      obtain ⟨hs, f, hf, he⟩ := h2 u hu
      simp only [hs, if_true, List.any_eq_true, decide_eq_true_eq]
      exact ⟨f, hf, he⟩
  · simp only [suppressEmbedsDecision]
    by_cases h : cur = shouldSuppress norm embedsUrls fileUrls
    · simp [h]
    · simp [h]
  · intro b hb
    simp only [suppressEmbedsDecision] at hb
    by_cases h : cur = shouldSuppress norm embedsUrls fileUrls
    · rw [if_pos h] at hb
      exact absurd hb (by simp)
    · rw [if_neg h] at hb
      have hb2 := Option.some.inj hb
      subst hb2
      exact ⟨rfl, fun hc => h hc.symm⟩

/-- Witness for C8: one matching preview suppresses; adding an unrelated
preview blocks suppression, so no toggle is needed from the unsuppressed
state. -/
theorem C8_suppressor_witness :
    shouldSuppress (fun s => s) [some (strOf "https://x")] [strOf "https://x"] = true ∧
    suppressEmbedsDecision (fun s => s) false
      [some (strOf "https://x"), some (strOf "https://y")] [strOf "https://x"] = none :=
  ⟨(C8_suppressor (fun s => s) false [some (strOf "https://x")]
      [strOf "https://x"]).1.mpr (by decide),
   (C8_suppressor (fun s => s) false [some (strOf "https://x"), some (strOf "https://y")]
      [strOf "https://x"]).2.1.mpr (by decide)⟩

theorem insertLeBy_mem (key : ChannelMsg → Nat) (m : ChannelMsg) :
    ∀ (l : List ChannelMsg) (x : ChannelMsg),
      x ∈ insertLeBy key m l ↔ x = m ∨ x ∈ l := by
  intro l
  induction l with
  | nil => intro x; simp [insertLeBy]
  | cons y ys ih =>
    intro x
    unfold insertLeBy
    by_cases h : key y ≤ key m
    · rw [if_pos h]
      rw [List.mem_cons, ih x, List.mem_cons]
      tauto
    · rw [if_neg h]
      rw [List.mem_cons, List.mem_cons]

theorem sortLeBy_mem (key : ChannelMsg → Nat) (l : List ChannelMsg) (x : ChannelMsg) :
    x ∈ sortLeBy key l ↔ x ∈ l := by
  unfold sortLeBy
  suffices h : ∀ (l2 acc : List ChannelMsg),
      x ∈ l2.foldl (fun acc m => insertLeBy key m acc) acc ↔ x ∈ acc ∨ x ∈ l2 by
    rw [h l []]
    simp
  intro l2
  induction l2 with
  | nil => intro acc; simp
  | cons y ys ih =>
    intro acc
    simp only [List.foldl_cons]
    rw [ih (insertLeBy key y acc), insertLeBy_mem, List.mem_cons]
    tauto

theorem insertLeBy_sorted (key : ChannelMsg → Nat) (m : ChannelMsg) :
    ∀ (l : List ChannelMsg),
      l.Pairwise (fun a b => key a ≤ key b) →
      (insertLeBy key m l).Pairwise (fun a b => key a ≤ key b) := by
  intro l
  induction l with
  | nil => intro _; simp [insertLeBy]
  | cons y ys ih =>
    intro hp
    rw [List.pairwise_cons] at hp
    obtain ⟨hy, hys⟩ := hp
    unfold insertLeBy
    by_cases h : key y ≤ key m
    · rw [if_pos h, List.pairwise_cons]
      refine ⟨fun x hx => ?_, ih hys⟩
      rcases (insertLeBy_mem key m ys x).mp hx with h1 | h2
      · subst h1; exact h
      · exact hy x h2
    · rw [if_neg h, List.pairwise_cons]
      refine ⟨fun x hx => ?_, List.pairwise_cons.mpr ⟨hy, hys⟩⟩
      rcases List.mem_cons.mp hx with h1 | h2
      · subst h1; omega
      · exact le_trans (by omega) (hy x h2)

theorem sortLeBy_sorted (key : ChannelMsg → Nat) (l : List ChannelMsg) :
    (sortLeBy key l).Pairwise (fun a b => key a ≤ key b) := by
  unfold sortLeBy
  suffices h : ∀ (l2 acc : List ChannelMsg),
      acc.Pairwise (fun a b => key a ≤ key b) →
      (l2.foldl (fun acc m => insertLeBy key m acc) acc).Pairwise
        (fun a b => key a ≤ key b) by
    exact h l [] (by simp)
  intro l2
  induction l2 with
  | nil => intro acc h; simpa using h
  | cons y ys ih =>
    intro acc h
    simp only [List.foldl_cons]
    exact ih _ (insertLeBy_sorted key y acc h)

theorem fetchAfter_spec (channel : List ChannelMsg) (afterId : Nat) :
    (fetchAfter channel afterId).length ≤ 10 ∧
    ∀ m ∈ fetchAfter channel afterId, m ∈ channel ∧ afterId < m.id := by
  unfold fetchAfter
  constructor
  · rw [List.length_reverse]
    exact List.length_take_le 10 _
  · intro m hm
    rw [List.mem_reverse] at hm
    have hm2 := List.mem_of_mem_take hm
    rw [sortLeBy_mem, List.mem_filter] at hm2
    exact ⟨hm2.1, by simpa using hm2.2⟩

theorem locatorCandidates_spec (channel : List ChannelMsg) (bot src : Nat) :
    (∀ m ∈ locatorCandidates channel bot src,
      m ∈ fetchAfter channel src ∧ m.authorId = bot) ∧
    (locatorCandidates channel bot src).Pairwise
      (fun a b => a.createdTimestamp ≤ b.createdTimestamp) := by
  unfold locatorCandidates
  constructor
  · intro m hm
    rw [sortLeBy_mem, List.mem_filter] at hm
    exact ⟨hm.1, by simpa using hm.2⟩
  · exact sortLeBy_sorted _ _

theorem findShadowIn_first (src : Nat) :
    ∀ (l : List ChannelMsg) (m : ChannelMsg),
      findShadowIn src l = .ok (some m) →
      ∃ pre post, l = pre ++ m :: post ∧ shadowTest src m = .ok true ∧
        ∀ m2 ∈ pre, shadowTest src m2 = .ok false := by
  intro l
  induction l with
  | nil =>
    intro m h
    simp [findShadowIn] at h
  | cons x xs ih =>
    intro m h
    simp only [findShadowIn, bind, Except.bind] at h
    cases hst : shadowTest src x with
    | error e => rw [hst] at h; simp at h
    | ok b =>
      rw [hst] at h
      cases b with
      | true =>
        simp only [pure, Except.pure, if_true, Except.ok.injEq, Option.some.injEq] at h
        subst h
        exact ⟨[], xs, rfl, hst, by simp⟩
      | false =>
        simp only [if_false, Bool.false_eq_true, if_neg] at h
        obtain ⟨pre, post, he, hm, hpre⟩ := ih m h
        refine ⟨x :: pre, post, by rw [he]; rfl, hm, fun m2 hm2 => ?_⟩
        rcases List.mem_cons.mp hm2 with h1 | h2
        · subst h1; exact hst
        · exact hpre m2 h2

theorem retrieveGo_found (oracle : Nat → List ChannelMsg) (b s a : Nat) (mr : Nat)
    (m : ChannelMsg) (h : attemptOnce (oracle a) b s = .ok (some m)) :
    retrieveGo oracle b s a mr = (.ok (some m), 1, 0) := by
  cases mr with
  | zero => simp [retrieveGo, h]
  | succ k => simp [retrieveGo, h]

theorem retrieveGo_miss (oracle : Nat → List ChannelMsg) (b s a k : Nat)
    (h : attemptOnce (oracle a) b s = .ok none) :
    retrieveGo oracle b s a (k + 1) =
      ((retrieveGo oracle b s (a + 1) k).1,
       (retrieveGo oracle b s (a + 1) k).2.1 + 1,
       (retrieveGo oracle b s (a + 1) k).2.2 + 1000) := by
  simp [retrieveGo, h]

theorem retrieveGo_all_miss (oracle : Nat → List ChannelMsg) (b s : Nat)
    (h : ∀ a2, attemptOnce (oracle a2) b s = .ok none) :
    ∀ (mr a : Nat), retrieveGo oracle b s a mr = (.ok none, mr + 1, 1000 * mr) := by
  intro mr
  induction mr with
  | zero => intro a; simp [retrieveGo, h a]
  | succ k ih =>
    intro a
    rw [retrieveGo_miss oracle b s a k (h a), ih (a + 1)]
    show (Except.ok none, k + 1 + 1, 1000 * k + 1000) =
      (Except.ok none, k + 1 + 1, 1000 * (k + 1))
    rw [Nat.mul_succ]

/-- C4: the locator fetches at most 10 messages, all from the channel and all
strictly after the source id; it keeps only bot-authored ones, sorted oldest
first by creation timestamp; it returns the first candidate whose first embed
title decodes to the source id (every earlier candidate testing negative);
a found shadow returns immediately with one fetch, a miss with posit.
budget recurses after a 1000 ms wait with the budget decremented, and an
always-missing history returns undefined after exactly maxRetries + 1
fetches and maxRetries waits. -/
theorem C4_locator (botUserId sourceId : Nat) :
    (∀ channel : List ChannelMsg, (fetchAfter channel sourceId).length ≤ 10 ∧
      ∀ m ∈ fetchAfter channel sourceId, m ∈ channel ∧ sourceId < m.id) ∧
    (∀ channel : List ChannelMsg,
      (∀ m ∈ locatorCandidates channel botUserId sourceId,
        m ∈ fetchAfter channel sourceId ∧ m.authorId = botUserId) ∧
      (locatorCandidates channel botUserId sourceId).Pairwise
        (fun a b => a.createdTimestamp ≤ b.createdTimestamp)) ∧
    (∀ (l : List ChannelMsg) (m : ChannelMsg),
      findShadowIn sourceId l = .ok (some m) →
      ∃ pre post, l = pre ++ m :: post ∧ shadowTest sourceId m = .ok true ∧
        ∀ m2 ∈ pre, shadowTest sourceId m2 = .ok false) ∧
    (∀ (oracle : Nat → List ChannelMsg) (a mr : Nat) (m : ChannelMsg),
      attemptOnce (oracle a) botUserId sourceId = .ok (some m) →
      retrieveGo oracle botUserId sourceId a mr = (.ok (some m), 1, 0)) ∧
    (∀ (oracle : Nat → List ChannelMsg) (a k : Nat),
      attemptOnce (oracle a) botUserId sourceId = .ok none →
      retrieveGo oracle botUserId sourceId a (k + 1) =
        ((retrieveGo oracle botUserId sourceId (a + 1) k).1,
         (retrieveGo oracle botUserId sourceId (a + 1) k).2.1 + 1,
         (retrieveGo oracle botUserId sourceId (a + 1) k).2.2 + 1000)) ∧
    (∀ (oracle : Nat → List ChannelMsg) (mr : Nat),
      (∀ a, attemptOnce (oracle a) botUserId sourceId = .ok none) →
      retrieveOldEmbedsMessage oracle botUserId sourceId mr =
        (.ok none, mr + 1, 1000 * mr)) :=
  ⟨fun ch => fetchAfter_spec ch sourceId,
   fun ch => locatorCandidates_spec ch botUserId sourceId,
   findShadowIn_first sourceId,
   fun oracle a mr m h => retrieveGo_found oracle botUserId sourceId a mr m h,
   fun oracle a k h => retrieveGo_miss oracle botUserId sourceId a k h,
   fun oracle mr h => retrieveGo_all_miss oracle botUserId sourceId h mr 0⟩

/-- Witness for C4: an always-empty history with budget 2 returns undefined
after 3 fetches and 2 seconds of waiting. -/
theorem C4_locator_witness :
    retrieveOldEmbedsMessage (fun _ => []) 2 100 2 = (.ok none, 2 + 1, 1000 * 2) :=
  (C4_locator 2 100).2.2.2.2.2 (fun _ => []) 2
    (fun _ => show attemptOnce [] 2 100 = Except.ok none by decide)

/-! ## Helper lemmas for the idempotence claim -/

theorem except_bind_ok {α β : Type} (a : α) (f : α → Except Str β) :
    (Except.ok a : Except Str α) >>= f = f a := rfl

/-- A resolved file fit for stable re-synchronization: all four fields
truthy, the name free of the reserved invisible code points, the modified
time parseable within the supported range. -/
def CleanFile (f : ResolvedFile) : Prop :=
  strTruthy f.name = true ∧ strTruthy f.webViewLink = true ∧
  strTruthy f.mimeType = true ∧ strTruthy f.modifiedTime = true ∧
  (∀ c ∈ f.name.getD [], c ∉ invisibleChars) ∧
  ∃ ms, dateMs (f.modifiedTime.getD []) = some ms ∧ ms ≤ maxIsoMs

/-- A metadata oracle that never fails with a non-not-found error and only
returns clean files. -/
def CleanDrive (drive : Str → ResolveResult) : Prop :=
  ∀ fid, isOtherError (drive fid) = false ∧
    ∀ f, drive fid = .found f → CleanFile f

theorem digitsOfGo_digits :
    ∀ (fuel n : Nat), ∀ c ∈ digitsOfGo fuel n, 48 ≤ c ∧ c ≤ 57 := by
  intro fuel
  induction fuel with
  | zero => intro n c h; simp [digitsOfGo] at h
  | succ k ih =>
    intro n c h
    unfold digitsOfGo at h
    by_cases hn : n < 10
    · rw [if_pos hn] at h
      simp at h
      omega
    · rw [if_neg hn] at h
      rcases List.mem_append.mp h with h1 | h2
      · exact ih (n / 10) c h1
      · simp at h2
        have := Nat.mod_lt n (show 0 < 10 by norm_num)
        omega

theorem idString_valid (n : Nat) : ∀ c ∈ idString n, ValidScalar c := by
  intro c h
  have := digitsOfGo_digits (n + 1) n c h
  unfold ValidScalar
  omega

theorem idString_head (n : Nat) : (idString n).head? ≠ some 0xFEFF := by
  intro h
  cases hs : idString n with
  | nil => rw [hs] at h; simp at h
  | cons c cs =>
    rw [hs] at h
    simp only [List.head?, Option.some.injEq] at h
    have hc : c ∈ idString n := by rw [hs]; exact List.mem_cons_self _ _
    have := digitsOfGo_digits (n + 1) n c hc
    omega

theorem strTruthy_some (l : Str) : strTruthy (some l) = true ↔ l ≠ [] := by
  cases l <;> simp [strTruthy]

theorem shadowTitle_decodes (name : Str) (n : Nat)
    (hv : ∀ c ∈ name, c ∉ invisibleChars) :
    decodeAppendedInvisible (appendInvisible name (idString n)) = .ok (idString n) := by
  rw [decodeAppendedInvisible_append name (idString n) hv (idString_valid n)
    (idString_ne_nil n)]
  exact decode_encode (idString n) (idString_valid n) (idString_head n)

theorem foldlMax_le (l : List ChannelMsg) :
    ∀ acc, acc ≤ l.foldl (fun a m => max a m.id) acc ∧
      ∀ m ∈ l, m.id ≤ l.foldl (fun a m => max a m.id) acc := by
  induction l with
  | nil => intro acc; exact ⟨le_refl _, by simp⟩
  | cons x xs ih =>
    intro acc
    simp only [List.foldl_cons]
    obtain ⟨h1, h2⟩ := ih (max acc x.id)
    refine ⟨le_trans (le_max_left _ _) h1, fun m hm => ?_⟩
    rcases List.mem_cons.mp hm with hx | hxs
    · subst hx; exact le_trans (le_max_right _ _) h1
    · exact h2 m hxs

theorem lt_freshId (channel : List ChannelMsg) (m : ChannelMsg) (h : m ∈ channel) :
    m.id < freshId channel := by
  unfold freshId
  have := (foldlMax_le channel 0).2 m h
  omega

theorem find?_append_left (l1 l2 : List ChannelMsg) (p : ChannelMsg → Bool)
    (x : ChannelMsg) (h : l1.find? p = some x) : (l1 ++ l2).find? p = some x := by
  induction l1 with
  | nil => simp [List.find?] at h
  | cons y ys ih =>
    rw [List.cons_append]
    cases hp : p y with
    | true =>
      rw [List.find?_cons_of_pos _ hp] at h
      rw [List.find?_cons_of_pos _ hp]
      exact h
    | false =>
      have hp2 : ¬ p y = true := by simp [hp]
      rw [List.find?_cons_of_neg _ hp2] at h
      rw [List.find?_cons_of_neg _ hp2]
      exact ih h

theorem fetchAfter_singleton (channel : List ChannelMsg) (sid : Nat) (sh : ChannelMsg)
    (hlast : ∀ m ∈ channel, m.id ≤ sid) (hsh : sid < sh.id) :
    fetchAfter (channel ++ [sh]) sid = [sh] := by
  unfold fetchAfter
  have hf : (channel ++ [sh]).filter (fun m => decide (sid < m.id)) = [sh] := by
    rw [List.filter_append]
    have h1 : channel.filter (fun m => decide (sid < m.id)) = [] := by
      rw [List.filter_eq_nil_iff]
      intro m hm
      have := hlast m hm
      simp only [decide_eq_true_eq]
      omega
    have h2 : List.filter (fun m => decide (sid < m.id)) [sh] = [sh] := by
      simp [List.filter_cons, hsh]
    rw [h1, h2, List.nil_append]
  rw [hf]
  rfl

theorem applySuppression_noop (norm : Str → Str) (c : List ChannelMsg) (sid : Nat)
    (urls : List Str) (src : ChannelMsg)
    (hfind : c.find? (fun m => decide (m.id = sid)) = some src)
    (hemb : src.embeds = []) (hflag : src.flagsSuppressed = false) :
    applySuppression norm c sid urls = (c, 0) := by
  unfold applySuppression
  rw [hfind]
  have hd : suppressEmbedsDecision norm src.flagsSuppressed
      (src.embeds.map (fun e => e.url)) urls = none := by
    rw [hemb, hflag]
    simp [suppressEmbedsDecision, shouldSuppress]
  show (match suppressEmbedsDecision norm src.flagsSuppressed
          (src.embeds.map (fun e => e.url)) urls with
        | none => (c, 0)
        | some b => (setSuppressed c sid b, 1)) = (c, 0)
  rw [hd]

theorem resolveFiles_clean (drive : Str → ResolveResult) (hdrive : CleanDrive drive) :
    ∀ (ids : List Str),
      resolveFiles drive ids = .ok (ids.filterMap (fun i =>
        match drive i with | .found f => some f | _ => none)) ∧
      ∀ f ∈ (ids.filterMap (fun i =>
        match drive i with | .found f => some f | _ => none)), CleanFile f := by
  intro ids
  induction ids with
  | nil => exact ⟨by simp [resolveFiles], by simp⟩
  | cons i0 is ih =>
    obtain ⟨h1, h2⟩ := ih
    constructor
    · simp only [resolveFiles, List.filterMap]
      cases hd : drive i0 with
      | otherError e =>
        have := (hdrive i0).1
        rw [hd] at this
        simp [isOtherError] at this
      | notFound => rw [h1]
      | found f => rw [h1]; simp [Except.map]
    · intro f hf
      rw [List.filterMap_cons] at hf
      cases hd : drive i0 with
      | otherError e =>
        have := (hdrive i0).1
        rw [hd] at this
        simp [isOtherError] at this
      | notFound =>
        rw [hd] at hf
        exact h2 f hf
      | found f2 =>
        rw [hd] at hf
        rcases List.mem_cons.mp hf with hh | ht
        · rw [hh]
          exact (hdrive i0).2 f2 hd
        · exact h2 f ht

theorem buildEmbed_ok (sid : Str) (k : Nat) (f : ResolvedFile) (hf : CleanFile f) :
    ∃ ms, dateMs (f.modifiedTime.getD []) = some ms ∧ ms ≤ maxIsoMs ∧
      buildEmbed sid k f = .ok
        { title := some (if 0 < k then f.name.getD []
                         else appendInvisible (f.name.getD []) sid),
          url := f.webViewLink, color := some (fileColor (f.mimeType.getD [])),
          timestamp := some (isoRender ms), extra := [] } := by
  obtain ⟨h1, h2, h3, h4, _, ms, hms, hle⟩ := hf
  refine ⟨ms, hms, hle, ?_⟩
  unfold buildEmbed
  rw [if_pos (by simp [h1, h2, h3, h4])]
  rw [hms]

theorem buildEmbedsGo_clean (sid : Str) :
    ∀ (files : List ResolvedFile) (k : Nat), (∀ f ∈ files, CleanFile f) →
      ∃ es, buildEmbedsGo sid k files = .ok es ∧ es.length = files.length ∧
        (∀ e ∈ es, (∃ ms, e.timestamp = some (isoRender ms) ∧ ms ≤ maxIsoMs) ∧
          e.extra = []) ∧
        ∀ f0 fs, files = f0 :: fs →
          ∃ e0 es2, es = e0 :: es2 ∧
            e0.title = some (if 0 < k then f0.name.getD []
                             else appendInvisible (f0.name.getD []) sid) := by
  intro files
  induction files with
  | nil =>
    intro k h
    exact ⟨[], rfl, rfl, by simp, fun f0 fs hx => absurd hx (by simp)⟩
  | cons f0 fs ih =>
    intro k h
    obtain ⟨ms, hms, hle, hbe⟩ := buildEmbed_ok sid k f0 (h f0 (by simp))
    obtain ⟨es2, hes2, hlen2, hprop2, _⟩ := ih (k + 1) (fun f hf => h f (by simp [hf]))
    refine ⟨{ title := some (if 0 < k then f0.name.getD []
                 else appendInvisible (f0.name.getD []) sid),
              url := f0.webViewLink,
              color := some (fileColor (f0.mimeType.getD [])),
              timestamp := some (isoRender ms), extra := [] } :: es2, ?_, ?_, ?_, ?_⟩
    · simp only [buildEmbedsGo, bind, Except.bind]
      rw [hbe, hes2]
      rfl
    · simp [hlen2]
    · intro e he
      rcases List.mem_cons.mp he with hh | ht
      · subst hh
        exact ⟨⟨ms, rfl, hle⟩, rfl⟩
      · exact hprop2 e ht
    · intro f0g fsg hx
      injection hx with hx1 hx2
      subst hx1
      exact ⟨_, es2, rfl, rfl⟩

theorem embedsDiffer_self (es : List EmbedData)
    (h : ∀ e ∈ es, (∃ ms, e.timestamp = some (isoRender ms) ∧ ms ≤ maxIsoMs) ∧
      e.extra = []) :
    embedsDiffer es es = false := by
  rw [embedsDiffer_eq_false_iff]
  refine ⟨rfl, fun p hp => ?_⟩
  obtain ⟨heq, hmem⟩ := zip_self_mem es p hp
  obtain ⟨⟨ms, hts, hle⟩, hex⟩ := h p.1 hmem
  constructor
  · have hd : dateVal (some (isoRender ms)) = some ms := by
      simp only [dateVal]
      exact dateMs_isoRender ms hle
    unfold tsEqualB
    rw [← heq, hts, hd]
    simp
  · unfold deepMatchNoTs
    rw [← heq, hex]
    cases p.1.title <;> cases p.1.url <;> cases p.1.color <;> simp

theorem createEmbedsMessage_clean (drive : Str → ResolveResult) (ids : List Str)
    (sid : Str) (hdrive : CleanDrive drive) :
    createEmbedsMessage drive ids sid = .ok none ∨
    ∃ es, createEmbedsMessage drive ids sid = .ok (some ⟨es, true⟩) ∧
      (∀ e ∈ es, (∃ ms, e.timestamp = some (isoRender ms) ∧ ms ≤ maxIsoMs) ∧
        e.extra = []) ∧
      ∃ e0 es2 name0, es = e0 :: es2 ∧
        e0.title = some (appendInvisible name0 sid) ∧
        ∀ c ∈ name0, c ∉ invisibleChars := by
  obtain ⟨hres, hclean⟩ := resolveFiles_clean drive hdrive ids
  cases hfl : ids.filterMap (fun i =>
      match drive i with | .found f => some f | _ => none) with
  | nil =>
    left
    simp only [createEmbedsMessage]
    rw [hres, hfl]
    simp only [except_bind_ok]
    rfl
  | cons f0 fs =>
    right
    rw [hfl] at hres hclean
    obtain ⟨es, hbuild, hlen, hprop, hhead⟩ :=
      buildEmbedsGo_clean sid (f0 :: fs) 0 hclean
    obtain ⟨e0, es2, hes, ht0⟩ := hhead f0 fs rfl
    refine ⟨es, ?_, hprop, e0, es2, f0.name.getD [], hes, by simpa using ht0, ?_⟩
    · simp only [createEmbedsMessage]
      rw [hres]
      simp only [except_bind_ok]
      rw [if_neg (by simp), hbuild]
      simp only [except_bind_ok]
      rfl
    · have := hclean f0 (by simp)
      exact this.2.2.2.2.1

theorem shadowTest_built (sid : Nat) (sh : ChannelMsg) (e0 : EmbedData)
    (es2 : List EmbedData) (name : Str)
    (hemb : sh.embeds = e0 :: es2)
    (ht : e0.title = some (appendInvisible name (idString sid)))
    (hv : ∀ c ∈ name, c ∉ invisibleChars) :
    shadowTest sid sh = .ok true := by
  unfold shadowTest
  rw [hemb]
  show (if strTruthy e0.title = true then
          Except.map (fun s => decide (s = idString sid))
            (decodeAppendedInvisible (e0.title.getD []))
        else Except.ok false) = .ok true
  rw [ht]
  have htr : strTruthy (some (appendInvisible name (idString sid))) = true := by
    rw [strTruthy_some]
    unfold appendInvisible
    intro hx
    exact encode_ne_nil (idString sid) (idString_ne_nil sid) (List.append_eq_nil.mp hx).2
  rw [if_pos htr]
  simp only [Option.getD_some]
  rw [shadowTitle_decodes name sid hv]
  show Except.ok (decide (idString sid = idString sid)) = Except.ok true
  rw [decide_eq_true rfl]

theorem iterUpdate_fix (norm : Str → Str) (drive : Str → ResolveResult)
    (bot sid : Nat) (c : List ChannelMsg)
    (h : updateEmbedsMessage norm drive bot sid ⟨false, false⟩ c = .ok (c, ⟨0, 0, 0, 0⟩)) :
    ∀ k, iterUpdate norm drive bot sid k c = .ok c := by
  intro k
  induction k with
  | zero => rfl
  | succ n ih =>
    simp only [iterUpdate, bind, Except.bind]
    rw [h]
    exact ih

theorem updateEmbeds_eval (norm : Str → Str) (drive : Str → ResolveResult)
    (botUserId sourceId : Nat) (channel : List ChannelMsg) (src : ChannelMsg)
    (newly : Bool)
    (hsrc : channel.find? (fun m => decide (m.id = sourceId)) = some src)
    (oldRes : Option ChannelMsg)
    (hold : (if newly = true then Except.ok none
             else (retrieveOldEmbedsMessage (fun _ => channel) botUserId sourceId 2).1) =
            .ok oldRes)
    (newRes : Option EmbedsMessage)
    (hnew : createEmbedsMessage drive
        ((extractFileIds src.content).map (fun p => p.2)) (idString sourceId) =
      .ok newRes) :
    updateEmbedsMessage norm drive botUserId sourceId ⟨newly, false⟩ channel =
      (match oldRes, newRes with
       | none, none => .ok (channel, ⟨0, 0, 0, 0⟩)
       | none, some n =>
         .ok ((applySuppression norm (sendMsg channel botUserId n.embeds) sourceId
                ((extractFileIds src.content).map (fun p => p.1))).1,
              ⟨1, 0, 0, (applySuppression norm (sendMsg channel botUserId n.embeds)
                sourceId ((extractFileIds src.content).map (fun p => p.1))).2⟩)
       | some o, none =>
         .ok ((applySuppression norm (deleteMsg channel o.id) sourceId
                ((extractFileIds src.content).map (fun p => p.1))).1,
              ⟨0, 0, 1, (applySuppression norm (deleteMsg channel o.id) sourceId
                ((extractFileIds src.content).map (fun p => p.1))).2⟩)
       | some o, some n =>
         .ok ((applySuppression norm
                (if embedsDiffer o.embeds n.embeds = true then
                  editMsg channel o.id n.embeds else channel) sourceId
                ((extractFileIds src.content).map (fun p => p.1))).1,
              ⟨0, if embedsDiffer o.embeds n.embeds = true then 1 else 0, 0,
               (applySuppression norm
                (if embedsDiffer o.embeds n.embeds = true then
                  editMsg channel o.id n.embeds else channel) sourceId
                ((extractFileIds src.content).map (fun p => p.1))).2⟩)) := by
  cases newly with
  | true =>
    rw [if_pos rfl] at hold
    have hold2 : oldRes = none := by
      cases oldRes with
      | none => rfl
      | some m => exact absurd hold (by simp)
    subst hold2
    simp only [updateEmbedsMessage, hsrc, bind, Except.bind, pure, Except.pure]
    simp only [if_true]
    rw [hnew]
    cases newRes with
    | none => rfl
    | some n => rfl
  | false =>
    rw [if_neg (by simp)] at hold
    simp only [updateEmbedsMessage, hsrc, bind, Except.bind, pure, Except.pure]
    rw [if_neg (show ¬ (false = true) by simp)]
    rw [hold]
    cases oldRes with
    | none =>
      rw [hnew]
      cases newRes with
      | none => rfl
      | some n => rfl
    | some o =>
      rw [hnew]
      cases newRes with
      | none => rfl
      | some n => rfl

/-- C2 (amended): re-running the orchestrator on an unchanged source message
is idempotent provided the resolver is clean — every resolved file has
truthy fields, a name free of the 16 reserved invisible code points and a
parseable modified time within the supported range — the source message has
no native previews, is not embeds-suppressed, and no message follows it in
the channel when first processed.  Then the first run sends at most one
shadow and performs no edit, and every later run returns the channel
unchanged with zero sends, edits, deletes and suppression toggles. -/
theorem C2_idempotent_amended (norm : Str → Str) (drive : Str → ResolveResult)
    (botUserId sourceId : Nat) (channel : List ChannelMsg) (src : ChannelMsg)
    (hsrc : channel.find? (fun m => decide (m.id = sourceId)) = some src)
    (hlast : ∀ m ∈ channel, m.id ≤ sourceId)
    (hemb : src.embeds = [])
    (hflag : src.flagsSuppressed = false)
    (hdrive : CleanDrive drive) :
    ∃ c1 eff1,
      updateEmbedsMessage norm drive botUserId sourceId ⟨true, false⟩ channel =
        .ok (c1, eff1) ∧
      eff1.sends ≤ 1 ∧ eff1.edits = 0 ∧
      updateEmbedsMessage norm drive botUserId sourceId ⟨false, false⟩ c1 =
        .ok (c1, ⟨0, 0, 0, 0⟩) ∧
      ∀ k, iterUpdate norm drive botUserId sourceId k c1 = .ok c1 := by
  rcases createEmbedsMessage_clean drive
      ((extractFileIds src.content).map (fun p => p.2)) (idString sourceId) hdrive with
    hnew | ⟨es, hnew, hprop, e0, es2, name0, hes, ht0, hv0⟩
  · -- no shadow content: both runs are no-ops on the unchanged channel
    have hfetchA : fetchAfter channel sourceId = [] := by
      unfold fetchAfter
      have h1 : channel.filter (fun m => decide (sourceId < m.id)) = [] := by
        rw [List.filter_eq_nil_iff]
        intro m hm
        have := hlast m hm
        simp only [decide_eq_true_eq]
        omega
      rw [h1]
      rfl
    have hattA : attemptOnce channel botUserId sourceId = .ok none := by
      unfold attemptOnce locatorCandidates
      rw [hfetchA]
      rfl
    have holdA : (retrieveOldEmbedsMessage (fun _ => channel) botUserId sourceId 2).1 =
        .ok none := by
      unfold retrieveOldEmbedsMessage
      rw [retrieveGo_all_miss (fun _ => channel) botUserId sourceId (fun a => hattA) 2 0]
    have hrun1 := updateEmbeds_eval norm drive botUserId sourceId channel src true hsrc
      none (by rw [if_pos rfl]) none hnew
    have hrun2 := updateEmbeds_eval norm drive botUserId sourceId channel src false hsrc
      none (by rw [if_neg (by simp)]; exact holdA) none hnew
    exact ⟨channel, ⟨0, 0, 0, 0⟩, hrun1, Nat.zero_le 1, rfl, hrun2,
      iterUpdate_fix norm drive botUserId sourceId channel hrun2⟩
  · -- a shadow is sent once and found unchanged afterwards
    have hsrcmem : src ∈ channel := List.mem_of_find?_eq_some hsrc
    have hsrcid : src.id = sourceId := by
      have := List.find?_some hsrc
      simpa using this
    set shM : ChannelMsg :=
      { id := freshId channel, authorId := botUserId,
        createdTimestamp := freshId channel, embeds := es,
        flagsSuppressed := false, content := [] } with hshM
    have hshid : sourceId < shM.id := by
      have := lt_freshId channel src hsrcmem
      have h2 : shM.id = freshId channel := rfl
      omega
    have hsend : sendMsg channel botUserId es = channel ++ [shM] := rfl
    have hfetchB : fetchAfter (channel ++ [shM]) sourceId = [shM] :=
      fetchAfter_singleton channel sourceId shM hlast hshid
    have hcand : locatorCandidates (channel ++ [shM]) botUserId sourceId = [shM] := by
      unfold locatorCandidates
      rw [hfetchB]
      have hfil : List.filter (fun m => decide (m.authorId = botUserId)) [shM] = [shM] := by
        simp [List.filter_cons, hshM]
      rw [hfil]
      rfl
    have hshTest : shadowTest sourceId shM = .ok true :=
      shadowTest_built sourceId shM e0 es2 name0 hes ht0 hv0
    have hattB : attemptOnce (channel ++ [shM]) botUserId sourceId = .ok (some shM) := by
      unfold attemptOnce
      rw [hcand]
      simp only [findShadowIn]
      rw [hshTest]
      simp only [except_bind_ok]
      rfl
    have holdB : (retrieveOldEmbedsMessage (fun _ => channel ++ [shM]) botUserId
        sourceId 2).1 = .ok (some shM) := by
      unfold retrieveOldEmbedsMessage
      rw [retrieveGo_found (fun _ => channel ++ [shM]) botUserId sourceId 0 2 shM hattB]
    have hfind1 : (channel ++ [shM]).find? (fun m => decide (m.id = sourceId)) =
        some src := find?_append_left channel [shM] _ src hsrc
    have hsup1 : applySuppression norm (channel ++ [shM]) sourceId
        ((extractFileIds src.content).map (fun p => p.1)) = (channel ++ [shM], 0) :=
      applySuppression_noop norm (channel ++ [shM]) sourceId _ src hfind1 hemb hflag
    have hdiff : embedsDiffer shM.embeds es = false := by
      show embedsDiffer es es = false
      exact embedsDiffer_self es hprop
    have hrun1 : updateEmbedsMessage norm drive botUserId sourceId ⟨true, false⟩
        channel = .ok (channel ++ [shM], ⟨1, 0, 0, 0⟩) := by
      have h := updateEmbeds_eval norm drive botUserId sourceId channel src true hsrc
        none (by rw [if_pos rfl]) (some ⟨es, true⟩) hnew
      rw [h]
      show Except.ok ((applySuppression norm (sendMsg channel botUserId es) sourceId
          ((extractFileIds src.content).map (fun p => p.1))).1,
        (⟨1, 0, 0, (applySuppression norm (sendMsg channel botUserId es) sourceId
          ((extractFileIds src.content).map (fun p => p.1))).2⟩ : Effects)) =
        Except.ok (channel ++ [shM], (⟨1, 0, 0, 0⟩ : Effects))
      rw [hsend, hsup1]
    have hrun2 : updateEmbedsMessage norm drive botUserId sourceId ⟨false, false⟩
        (channel ++ [shM]) = .ok (channel ++ [shM], ⟨0, 0, 0, 0⟩) := by
      have h := updateEmbeds_eval norm drive botUserId sourceId (channel ++ [shM]) src
        false hfind1 (some shM) (by rw [if_neg (by simp)]; exact holdB)
        (some ⟨es, true⟩) hnew
      rw [h]
      show Except.ok ((applySuppression norm
          (if embedsDiffer shM.embeds es = true then
            editMsg (channel ++ [shM]) shM.id es else (channel ++ [shM])) sourceId
          ((extractFileIds src.content).map (fun p => p.1))).1,
        (⟨0, if embedsDiffer shM.embeds es = true then 1 else 0, 0,
         (applySuppression norm
          (if embedsDiffer shM.embeds es = true then
            editMsg (channel ++ [shM]) shM.id es else (channel ++ [shM])) sourceId
          ((extractFileIds src.content).map (fun p => p.1))).2⟩ : Effects)) =
        Except.ok (channel ++ [shM], (⟨0, 0, 0, 0⟩ : Effects))
      rw [hdiff]
      simp only [Bool.false_eq_true, if_false]
      rw [hsup1]
    exact ⟨channel ++ [shM], ⟨1, 0, 0, 0⟩, hrun1, le_refl 1, rfl, hrun2,
      iterUpdate_fix norm drive botUserId sourceId (channel ++ [shM]) hrun2⟩

def c2Content : Str := strOf "https://drive.google.com/file/d/AAAAAAAAAAAAAAAAAAAAAAAAA/view"

def c2Source : ChannelMsg :=
  { id := 100, authorId := 1, createdTimestamp := 100, embeds := [],
    flagsSuppressed := false, content := c2Content }

def c2CleanDrive : Str → ResolveResult := fun _ =>
  .found { name := some (strOf "Doc"), webViewLink := some c2Content,
           mimeType := some (strOf "text/plain"),
           modifiedTime := some (strOf "2024-01-01T00:00:00.000Z") }

/-- Witness for C2: a concrete clean run is idempotent. -/
theorem C2_idempotent_amended_witness :
    ∃ c1 eff1,
      updateEmbedsMessage (fun s => s) c2CleanDrive 2 100 ⟨true, false⟩ [c2Source] =
        .ok (c1, eff1) ∧
      eff1.sends ≤ 1 ∧ eff1.edits = 0 ∧
      updateEmbedsMessage (fun s => s) c2CleanDrive 2 100 ⟨false, false⟩ c1 =
        .ok (c1, ⟨0, 0, 0, 0⟩) ∧
      ∀ k, iterUpdate (fun s => s) c2CleanDrive 2 100 k c1 = .ok c1 :=
  C2_idempotent_amended (fun s => s) c2CleanDrive 2 100 [c2Source] c2Source
    (by decide) (by decide) rfl rfl
    (by
      intro fid
      refine ⟨rfl, fun f hf => ?_⟩
      cases hf
      exact ⟨by decide, by decide, by decide, by decide, by decide,
        1704067200000, by decide, by decide⟩)

def c2BadDrive : Str → ResolveResult := fun _ =>
  .found { name := some [0x2060], webViewLink := some c2Content,
           mimeType := some (strOf "text/plain"),
           modifiedTime := some (strOf "2024-01-01T00:00:00.000Z") }

set_option maxRecDepth 1000000 in
/-- C2 counterexample: when a resolved file name consists of the reserved
code point U+2060, the shadow title decodes to the wrong payload, the second
run fails to locate the shadow, and it sends a duplicate: each of the first
two runs issues a send, so the claimed "at most one send across repeated
runs" fails. -/
theorem C2_idempotent_counterexample :
    ((updateEmbedsMessage (fun s => s) c2BadDrive 2 100 ⟨true, false⟩
      [c2Source]).map (fun p => p.2.sends) = .ok 1) ∧
    ((updateEmbedsMessage (fun s => s) c2BadDrive 2 100 ⟨true, false⟩
        [c2Source]).bind (fun p =>
          (updateEmbedsMessage (fun s => s) c2BadDrive 2 100 ⟨false, false⟩ p.1).map
            (fun q => q.2.sends)) = .ok 1) := by
  exact ⟨by decide, by decide⟩

end Gdrive
